import Mathlib

/-!
Verification of the iterative sinkhole-identification procedure
(`SinkHoleIdentification.py`, procedure `sinkhole_indentifier`).

The script drives an iterative fill / detect / extract / deflate loop over a
gridded elevation surface:

* step 1: `outFill = Fill(DEM)` — depression filling;
* step 2: `sink = filled - DEM`, `SNK = Con(sink > 0, sink)`;
* step 3: `MSK = Con(SNK > 0, 1)`;
* steps 4-5: polygons of `MSK` are the zones of a zonal-maximum raster
  `MAX = ZonalStatistics(mskv, "ID", snk, MAXIMUM)`;
* step 6: `HOL = Con(snk >= d, Con(snk == MAX, 1))`;
* termination test: if `HOL` is all nodata, stop;
* steps 7-9: `HOL` is vectorized and appended to the output collection;
* step 10: `DEM2 = Con(MAX >= d, Con(snk != MAX, MAX - snk))`, and the loop
  restarts with `DEM = DEM2`.

Rasters are embedded as lists of rows of `Option ℤ` cells (`none` = nodata),
all sharing the extent `R × C` fixed by the input DEM (the script sets
`arcpy.env.extent = DEM`).  Elevations and the threshold are modelled as
(arbitrary-precision) integers: the algorithm uses only ordering and
subtraction of elevation values, so its behaviour is that of any linearly
ordered group of values, and the integer embedding keeps every raster
computable by the kernel for the concrete scenario proofs.  The geoprocessing operations the script delegates
to (`Fill`, `RasterToPolygon`, `ZonalStatistics`, raster algebra `Con`) are
modelled from the specification's component design, as noted on each
definition; everything else is translated directly from the python source.
-/

namespace SinkId

/-- A raster cell: `none` is the nodata sentinel. -/
abbrev Cell := Option ℤ

/-- A raster: rows of cells, row-major. -/
abbrev Grid := List (List Cell)

/-- A label raster (integer region ids, `0` = background). -/
abbrev LGrid := List (List ℕ)

/-! ### Small list toolkit (version-stable helpers) -/

/-- `nthD l n d`: the `n`-th element of `l`, or `d` when out of range. -/
def nthD {α : Type} : List α → ℕ → α → α
  | [], _, d => d
  | a :: _, 0, _ => a
  | _ :: l, n + 1, d => nthD l n d

/-- `tabFrom f s n = [f s, f (s+1), ..., f (s+n-1)]`. -/
def tabFrom {α : Type} (f : ℕ → α) : ℕ → ℕ → List α
  | _, 0 => []
  | s, n + 1 => f s :: tabFrom f (s + 1) n

/-- `tabulate f n = [f 0, ..., f (n-1)]`. -/
def tabulate {α : Type} (f : ℕ → α) (n : ℕ) : List α := tabFrom f 0 n

/-- Count of elements satisfying a boolean predicate. -/
def cntP {α : Type} (p : α → Bool) : List α → ℕ
  | [] => 0
  | a :: l => (if p a then 1 else 0) + cntP p l

theorem nthD_nil {α : Type} (n : ℕ) (d : α) : nthD [] n d = d := by
  cases n <;> rfl

theorem nthD_cons_succ {α : Type} (a : α) (l : List α) (n : ℕ) (d : α) :
    nthD (a :: l) (n + 1) d = nthD l n d := rfl

theorem length_tabFrom {α : Type} (f : ℕ → α) (s n : ℕ) :
    (tabFrom f s n).length = n := by
  induction n generalizing s with
  | zero => rfl
  | succ n ih => simp [tabFrom, ih]

theorem nthD_tabFrom {α : Type} (f : ℕ → α) (s n i : ℕ) (d : α) (h : i < n) :
    nthD (tabFrom f s n) i d = f (s + i) := by
  induction n generalizing s i with
  | zero => omega
  | succ n ih =>
    cases i with
    | zero => simp [tabFrom, nthD]
    | succ i =>
      have : i < n := by omega
      simp [tabFrom, nthD_cons_succ, ih (s + 1) i this]
      ring_nf

theorem nthD_tabFrom_ge {α : Type} (f : ℕ → α) (s n i : ℕ) (d : α) (h : n ≤ i) :
    nthD (tabFrom f s n) i d = d := by
  induction n generalizing s i with
  | zero => simp [tabFrom, nthD_nil]
  | succ n ih =>
    cases i with
    | zero => omega
    | succ i => simpa [tabFrom, nthD_cons_succ] using ih (s + 1) i (by omega)

theorem nthD_tabulate {α : Type} (f : ℕ → α) (n i : ℕ) (d : α) (h : i < n) :
    nthD (tabulate f n) i d = f i := by
  simpa using nthD_tabFrom f 0 n i d h

theorem nthD_tabulate_ge {α : Type} (f : ℕ → α) (n i : ℕ) (d : α) (h : n ≤ i) :
    nthD (tabulate f n) i d = d := nthD_tabFrom_ge f 0 n i d h

theorem nthD_mem_or_default {α : Type} (l : List α) (n : ℕ) (d : α) :
    nthD l n d ∈ l ∨ nthD l n d = d := by
  induction l generalizing n with
  | nil => right; exact nthD_nil n d
  | cons a l ih =>
    cases n with
    | zero => left; exact List.mem_cons_self a l
    | succ n =>
      rcases ih n with h | h
      · left; exact List.mem_cons_of_mem a (by simpa [nthD_cons_succ] using h)
      · right; simpa [nthD_cons_succ] using h

theorem cntP_le_cntP {α : Type} (p q : α → Bool) (l : List α)
    (h : ∀ a ∈ l, p a = true → q a = true) : cntP p l ≤ cntP q l := by
  induction l with
  | nil => exact le_refl _
  | cons a l ih =>
    have hal := h a (List.mem_cons_self a l)
    have ihl := ih (fun b hb => h b (List.mem_cons_of_mem a hb))
    by_cases hp : p a = true
    · simp [cntP, hp, hal hp]; omega
    · have hp' : p a = false := by simpa using hp
      simp [cntP, hp']
      by_cases hq : q a = true <;> simp [hq] <;> omega

theorem cntP_lt_cntP {α : Type} (p q : α → Bool) (l : List α)
    (h : ∀ a ∈ l, p a = true → q a = true)
    (a0 : α) (ha0 : a0 ∈ l) (hq : q a0 = true) (hp : p a0 = false) :
    cntP p l < cntP q l := by
  induction l with
  | nil => cases ha0
  | cons a l ih =>
    rcases List.mem_cons.mp ha0 with rfl | hmem
    · have hle := cntP_le_cntP p q l (fun b hb => h b (List.mem_cons_of_mem _ hb))
      simp [cntP, hp, hq]; omega
    · have hlt := ih (fun b hb => h b (List.mem_cons_of_mem a hb)) hmem
      have hal := h a (List.mem_cons_self a l)
      by_cases hpa : p a = true
      · simp [cntP, hpa, hal hpa]; omega
      · have hp' : p a = false := by simpa using hpa
        simp [cntP, hp']
        by_cases hqa : q a = true <;> simp [hqa] <;> omega

/-- Sum of a natural-valued function over a list. -/
def sumF {α : Type} (f : α → ℕ) : List α → ℕ
  | [] => 0
  | a :: l => f a + sumF f l

theorem sumF_le_sumF {α : Type} (f g : α → ℕ) (l : List α)
    (h : ∀ a ∈ l, f a ≤ g a) : sumF f l ≤ sumF g l := by
  induction l with
  | nil => exact le_refl _
  | cons a l ih =>
    have := h a (List.mem_cons_self a l)
    have := ih (fun b hb => h b (List.mem_cons_of_mem a hb))
    simp [sumF]; omega

theorem sumF_lt_sumF {α : Type} (f g : α → ℕ) (l : List α)
    (h : ∀ a ∈ l, f a ≤ g a) (a0 : α) (ha0 : a0 ∈ l) (hlt : f a0 < g a0) :
    sumF f l < sumF g l := by
  induction l with
  | nil => cases ha0
  | cons a l ih =>
    rcases List.mem_cons.mp ha0 with rfl | hmem
    · have := sumF_le_sumF f g l (fun b hb => h b (List.mem_cons_of_mem _ hb))
      simp [sumF]; omega
    · have := ih (fun b hb => h b (List.mem_cons_of_mem a hb)) hmem
      have := h a (List.mem_cons_self a l)
      simp [sumF]; omega

/-! ### Grids -/

/-- Cell lookup in a value raster; out-of-range reads give nodata. -/
def gget (g : Grid) (r c : ℕ) : Cell := nthD (nthD g r []) c none

/-- Cell lookup in a label raster; out-of-range reads give background `0`. -/
def lget (g : LGrid) (r c : ℕ) : ℕ := nthD (nthD g r []) c 0

/-- Build an `R × C` raster of cells from a cell function. -/
def build {α : Type} (R C : ℕ) (f : ℕ → ℕ → α) : List (List α) :=
  tabulate (fun r => tabulate (f r) C) R

/-- All positions of the `R × C` extent, row-major. -/
def posList (R C : ℕ) : List (ℕ × ℕ) :=
  (tabulate (fun r => tabulate (fun c => (r, c)) C) R).foldr (· ++ ·) []

/-- Well-formedness of a raster of extent `R × C`: `R` rows of `C` cells. -/
def wf {α : Type} (R C : ℕ) (g : List (List α)) : Prop :=
  g.length = R ∧ ∀ row ∈ g, row.length = C

instance {α : Type} (R C : ℕ) (g : List (List α)) : Decidable (wf R C g) := by
  unfold wf; infer_instance

theorem gget_build (R C : ℕ) (f : ℕ → ℕ → Cell) (r c : ℕ) (hr : r < R) (hc : c < C) :
    gget (build R C f) r c = f r c := by
  unfold gget build
  rw [nthD_tabulate _ R r [] hr, nthD_tabulate _ C c none hc]

theorem gget_build_none (R C : ℕ) (f : ℕ → ℕ → Cell) (r c : ℕ) (h : ¬(r < R ∧ c < C)) :
    gget (build R C f) r c = none := by
  unfold gget build
  by_cases hr : r < R
  · have hc : C ≤ c := by omega
    rw [nthD_tabulate _ R r [] hr, nthD_tabulate_ge _ C c none hc]
  · rw [nthD_tabulate_ge _ R r [] (by omega), nthD_nil]

theorem lget_build (R C : ℕ) (f : ℕ → ℕ → ℕ) (r c : ℕ) (hr : r < R) (hc : c < C) :
    lget (build R C f) r c = f r c := by
  unfold lget build
  rw [nthD_tabulate _ R r [] hr, nthD_tabulate _ C c 0 hc]

theorem lget_build_zero (R C : ℕ) (f : ℕ → ℕ → ℕ) (r c : ℕ) (h : ¬(r < R ∧ c < C)) :
    lget (build R C f) r c = 0 := by
  unfold lget build
  by_cases hr : r < R
  · rw [nthD_tabulate _ R r [] hr, nthD_tabulate_ge _ C c 0 (by omega)]
  · rw [nthD_tabulate_ge _ R r [] (by omega), nthD_nil]

theorem wf_build {α : Type} (R C : ℕ) (f : ℕ → ℕ → α) : wf R C (build R C f) := by
  constructor
  · exact length_tabFrom _ 0 R
  · intro row hrow
    unfold build tabulate at hrow
    have : ∀ s n, row ∈ tabFrom (fun r => tabFrom (f r) 0 C) s n → row.length = C := by
      intro s n
      induction n generalizing s with
      | zero => intro h; cases h
      | succ n ih =>
        intro h
        rcases List.mem_cons.mp h with rfl | h
        · exact length_tabFrom _ 0 C
        · exact ih (s + 1) h
    exact this 0 R hrow

theorem tabFrom_ext {α : Type} (F G : ℕ → α) (n : ℕ) : ∀ s,
    (∀ i, s ≤ i → i < s + n → F i = G i) → tabFrom F s n = tabFrom G s n := by
  induction n with
  | zero => intro s _; rfl
  | succ n ih =>
    intro s hs
    simp only [tabFrom]
    rw [hs s (le_refl s) (by omega), ih (s + 1) (fun i h1 h2 => hs i (by omega) (by omega))]

theorem build_ext {α : Type} (R C : ℕ) (f g : ℕ → ℕ → α)
    (h : ∀ r < R, ∀ c < C, f r c = g r c) : build R C f = build R C g := by
  unfold build tabulate
  have h2 : ∀ r, r < R → tabFrom (f r) 0 C = tabFrom (g r) 0 C := by
    intro r hr
    exact tabFrom_ext _ _ C 0 (fun c _ hc => h r hr c (by omega))
  exact tabFrom_ext (fun r => tabFrom (f r) 0 C) (fun r => tabFrom (g r) 0 C) R 0
    (fun r _ hr => h2 r (by omega))

theorem mem_posList (R C : ℕ) (r c : ℕ) (hr : r < R) (hc : c < C) :
    (r, c) ∈ posList R C := by
  unfold posList tabulate
  have inner : ∀ n s, s ≤ c → c < s + n → (r, c) ∈ tabFrom (fun c => (r, c)) s n := by
    intro n
    induction n with
    | zero => intro s _ _; omega
    | succ n ih =>
      intro s h1 h2
      simp only [tabFrom]
      rcases Nat.eq_or_lt_of_le h1 with rfl | h1'
      · exact List.mem_cons_self _ _
      · exact List.mem_cons_of_mem _ (ih (s + 1) h1' (by omega))
  have outer : ∀ n s, s ≤ r → r < s + n →
      (r, c) ∈ (tabFrom (fun r => tabFrom (fun c => (r, c)) 0 C) s n).foldr (· ++ ·) [] := by
    intro n
    induction n with
    | zero => intro s _ _; omega
    | succ n ih =>
      intro s h1 h2
      simp only [tabFrom, List.foldr_cons, List.mem_append]
      rcases Nat.eq_or_lt_of_le h1 with rfl | h1'
      · left; exact inner C 0 (by omega) (by omega)
      · right; exact ih (s + 1) h1' (by omega)
  exact outer R 0 (by omega) (by omega)

theorem posList_bounds (R C : ℕ) (p : ℕ × ℕ) (hp : p ∈ posList R C) :
    p.1 < R ∧ p.2 < C := by
  unfold posList tabulate at hp
  have inner : ∀ r n s, p ∈ tabFrom (fun c => (r, c)) s n → p.1 = r ∧ p.2 < s + n := by
    intro r n
    induction n with
    | zero => intro s h; cases h
    | succ n ih =>
      intro s h
      rcases List.mem_cons.mp h with rfl | h
      · exact ⟨rfl, by show s < s + (n + 1); omega⟩
      · have := ih (s + 1) h; exact ⟨this.1, by omega⟩
  have outer : ∀ n s,
      p ∈ (tabFrom (fun r => tabFrom (fun c => (r, c)) 0 C) s n).foldr (· ++ ·) [] →
      s ≤ p.1 ∧ p.1 < s + n ∧ p.2 < C := by
    intro n
    induction n with
    | zero => intro s h; cases h
    | succ n ih =>
      intro s h
      simp only [tabFrom, List.foldr_cons, List.mem_append] at h
      rcases h with h | h
      · have := inner s C 0 h; omega
      · have := ih (s + 1) h; omega
  have := outer R 0 hp; omega

/-! ### Generic decreasing-iteration fixpoint lemma

Both the depression filler and the region labeler are computed as bounded
iterations of a pointwise-decreasing step; this lemma turns a step-counting
measure into an honest fixpoint. -/

theorem iterate_fix {α : Type} (f : α → α) (μ : α → ℕ) (x : α)
    (h : ∀ k, f (f^[k] x) = f^[k] x ∨ μ (f^[k + 1] x) < μ (f^[k] x)) :
    f (f^[μ x] x) = f^[μ x] x := by
  have aux : ∀ k, (∀ j < k, f (f^[j] x) ≠ f^[j] x) → μ (f^[k] x) + k ≤ μ x := by
    intro k
    induction k with
    | zero => intro _; simp
    | succ k ih =>
      intro hne
      have h1 := ih (fun j hj => hne j (by omega))
      rcases h k with hfix | hdec
      · exact absurd hfix (hne k (by omega))
      · omega
  by_cases hall : ∀ j < μ x + 1, f (f^[j] x) ≠ f^[j] x
  · have := aux (μ x + 1) hall
    omega
  · push_neg at hall
    obtain ⟨j, hj, hfix⟩ := hall
    have stable : ∀ m, f^[j + m] x = f^[j] x := by
      intro m
      induction m with
      | zero => rfl
      | succ m ih =>
        have : j + (m + 1) = (j + m) + 1 := by omega
        rw [this, Function.iterate_succ_apply', ih, hfix]
    have hj' : j ≤ μ x := by omega
    have : f^[μ x] x = f^[j] x := by
      have := stable (μ x - j)
      rwa [show j + (μ x - j) = μ x by omega] at this
    rw [this, hfix]

theorem iterate_stable {α : Type} (f : α → α) (x : α) (n : ℕ)
    (h : f (f^[n] x) = f^[n] x) (m : ℕ) (hm : n ≤ m) : f^[m] x = f^[n] x := by
  have : ∀ k, f^[n + k] x = f^[n] x := by
    intro k
    induction k with
    | zero => rfl
    | succ k ih =>
      have : n + (k + 1) = (n + k) + 1 := by omega
      rw [this, Function.iterate_succ_apply', ih, h]
  have := this (m - n)
  rwa [show n + (m - n) = m by omega] at this

/-! ### Cells ordered with `none` as the unreached level (+∞) -/

/-- `oLE x y`: `x ≤ y` where `none` is treated as `+∞` (unreached). -/
def oLE : Cell → Cell → Bool
  | _, none => true
  | none, some _ => false
  | some a, some b => decide (a ≤ b)

/-- Minimum of two cells, `none` = `+∞`. -/
def omin : Cell → Cell → Cell
  | none, y => y
  | some a, none => some a
  | some a, some b => some (min a b)

theorem oLE_refl (x : Cell) : oLE x x = true := by
  cases x <;> simp [oLE]

theorem oLE_trans (x y z : Cell) (h1 : oLE x y = true) (h2 : oLE y z = true) :
    oLE x z = true := by
  cases x <;> cases y <;> cases z <;> simp_all [oLE]
  exact le_trans h1 h2

theorem oLE_antisymm (x y : Cell) (h1 : oLE x y = true) (h2 : oLE y x = true) :
    x = y := by
  cases x <;> cases y <;> simp_all [oLE]
  exact le_antisymm h1 h2

theorem omin_mem (x y : Cell) : omin x y = x ∨ omin x y = y := by
  match x, y with
  | none, y => right; rfl
  | some a, none => left; rfl
  | some a, some b =>
    rcases le_total a b with h | h
    · left; simp [omin, min_eq_left h]
    · right; simp [omin, min_eq_right h]

theorem oLE_omin_left (x y : Cell) : oLE (omin x y) x = true := by
  match x, y with
  | none, _ => simp [omin, oLE]
  | some a, none => simp [omin, oLE]
  | some a, some b => simp [omin, oLE, min_le_left]

theorem oLE_omin_right (x y : Cell) : oLE (omin x y) y = true := by
  match x, y with
  | none, none => simp [omin, oLE]
  | none, some b => simp [omin, oLE]
  | some a, none => simp [omin, oLE]
  | some a, some b => simp [omin, oLE, min_le_right]

theorem omin_mono (x x' y y' : Cell) (hx : oLE x x' = true) (hy : oLE y y' = true) :
    oLE (omin x y) (omin x' y') = true := by
  match x', y' with
  | none, none => simp [omin, oLE]
  | none, some b' =>
    match y with
    | none => simp [oLE] at hy
    | some b =>
      have hb : b ≤ b' := by simpa [oLE] using hy
      match x with
      | none => simpa [omin, oLE] using hb
      | some a => simpa [omin, oLE] using le_trans (min_le_right a b) hb
  | some a', none =>
    match x with
    | none => simp [oLE] at hx
    | some a =>
      have ha : a ≤ a' := by simpa [oLE] using hx
      match y with
      | none => simpa [omin, oLE] using ha
      | some b => simpa [omin, oLE] using le_trans (min_le_left a b) ha
  | some a', some b' =>
    match x with
    | none => simp [oLE] at hx
    | some a =>
      have ha : a ≤ a' := by simpa [oLE] using hx
      match y with
      | none => simp [oLE] at hy
      | some b =>
        have hb : b ≤ b' := by simpa [oLE] using hy
        simpa [omin, oLE] using min_le_min ha hb

/-- Minimum of a list of cells, `none` = `+∞`. -/
def foldMin (l : List Cell) : Cell := l.foldr omin none

theorem foldMin_le (l : List Cell) (x : Cell) (hx : x ∈ l) :
    oLE (foldMin l) x = true := by
  induction l with
  | nil => cases hx
  | cons a l ih =>
    rcases List.mem_cons.mp hx with rfl | hmem
    · exact oLE_omin_left _ _
    · exact oLE_trans _ _ _ (oLE_omin_right _ _) (ih hmem)

theorem foldMin_mem (l : List Cell) : foldMin l = none ∨ foldMin l ∈ l := by
  induction l with
  | nil => left; rfl
  | cons a l ih =>
    rcases omin_mem a (foldMin l) with h | h
    · right; rw [show foldMin (a :: l) = omin a (foldMin l) from rfl, h]
      exact List.mem_cons_self a l
    · rw [show foldMin (a :: l) = omin a (foldMin l) from rfl, h]
      rcases ih with h' | h'
      · left; exact h'
      · right; exact List.mem_cons_of_mem a h'

theorem foldMin_mono (l l' : List Cell) (hlen : l.length = l'.length)
    (h : ∀ i, oLE (nthD l i none) (nthD l' i none) = true) :
    oLE (foldMin l) (foldMin l') = true := by
  induction l generalizing l' with
  | nil =>
    cases l' with
    | nil => simp [foldMin, oLE]
    | cons b l' => simp at hlen
  | cons a l ih =>
    cases l' with
    | nil => simp at hlen
    | cons b l' =>
      have h0 := h 0
      have htl : ∀ i, oLE (nthD l i none) (nthD l' i none) = true := fun i => h (i + 1)
      exact omin_mono _ _ _ _ h0 (ih l' (by simpa using hlen) htl)

/-! ### Grid adjacency (4-connectivity, §4.2 of the design) -/

/-- The 4-neighbourhood of a cell, clipped at the low edges; high-edge
neighbours read as out-of-range (nodata / background). -/
def nbrs (r c : ℕ) : List (ℕ × ℕ) :=
  (if r = 0 then [] else [(r - 1, c)]) ++ (if c = 0 then [] else [(r, c - 1)]) ++
    [(r, c + 1), (r + 1, c)]

/-- 4-adjacency of grid cells. -/
def adjP (r c r' c' : ℕ) : Prop := (r', c') ∈ nbrs r c

instance (r c r' c' : ℕ) : Decidable (adjP r c r' c') := by
  unfold adjP; infer_instance

theorem mem_nbrs_iff (r c r' c' : ℕ) :
    (r', c') ∈ nbrs r c ↔
      (r' + 1 = r ∧ c' = c) ∨ (c' + 1 = c ∧ r' = r) ∨
      (r' = r ∧ c' = c + 1) ∨ (r' = r + 1 ∧ c' = c) := by
  unfold nbrs
  by_cases hr : r = 0 <;> by_cases hc : c = 0 <;>
    simp [hr, hc, Prod.ext_iff] <;> constructor <;> intro h <;>
    rcases h with h | h | h | h <;> omega

theorem adjP_symm (r c r' c' : ℕ) (h : adjP r c r' c') : adjP r' c' r c := by
  unfold adjP at *
  rw [mem_nbrs_iff] at *
  omega

/-! ### Depression filling

Modelled from the spec: the script delegates step 1 to the external
`Fill` geoprocessing tool; §4.1 specifies its contract (each cell raised to
the minimum level reachable via a non-ascending escape path to the data
boundary, boundary cells unchanged, nodata cells pass through unfilled and
never propagate a fill level).  We compute that contract as the fixpoint of
the standard relaxation `F c = max (S c) (min over neighbours of F)`,
anchored at boundary cells, iterated a provably sufficient number of steps. -/

/-- A data cell on the edge of the grid or of the data extent (a nodata
4-neighbour); such cells are pour points and keep their elevation. -/
def isBdry (R C : ℕ) (S : Grid) (r c : ℕ) : Bool :=
  decide (r = 0) || decide (c = 0) || decide (r + 1 = R) || decide (c + 1 = C) ||
    (nbrs r c).any (fun p => (gget S p.1 p.2).isNone)

/-- Minimum fill level among the 4-neighbours (`none` = not yet reached). -/
def minNbr (W : Grid) (r c : ℕ) : Cell :=
  foldMin ((nbrs r c).map (fun p => gget W p.1 p.2))

/-- One relaxation update of the working fill level at one cell. -/
def fillCell (R C : ℕ) (S W : Grid) (r c : ℕ) : Cell :=
  match gget S r c with
  | none => none
  | some v =>
    if isBdry R C S r c then some v
    else
      match minNbr W r c with
      | none => none
      | some m => some (max v m)

/-- One relaxation sweep of the whole working grid. -/
def fstep (R C : ℕ) (S : Grid) (W : Grid) : Grid := build R C (fillCell R C S W)

/-- Initial working grid: boundary data cells at their own elevation,
interior data cells unreached, nodata cells nodata. -/
def W0 (R C : ℕ) (S : Grid) : Grid :=
  build R C fun r c =>
    match gget S r c with
    | none => none
    | some v => if isBdry R C S r c then some v else none

/-- The data values of one raster row. -/
def rowVals : List Cell → List ℤ
  | [] => []
  | none :: l => rowVals l
  | some v :: l => v :: rowVals l

/-- All data values of a raster. -/
def vals : Grid → List ℤ
  | [] => []
  | row :: g => rowVals row ++ vals g

/-- Deduplication of a list of values. -/
def qdedup : List ℤ → List ℤ
  | [] => []
  | x :: xs => if x ∈ qdedup xs then qdedup xs else x :: qdedup xs

theorem mem_qdedup (l : List ℤ) (x : ℤ) : x ∈ qdedup l ↔ x ∈ l := by
  induction l with
  | nil => simp [qdedup]
  | cons a l ih =>
    by_cases h : a ∈ qdedup l
    · simp only [qdedup, if_pos h, List.mem_cons, ih]
      constructor
      · intro hx; right; exact hx
      · intro hx
        rcases hx with rfl | hx
        · exact ih.mp h
        · exact hx
    · simp [qdedup, if_neg h, List.mem_cons, ih]

/-- The finite set of levels a working fill grid can hold: unreached, or one
of the surface's data values. -/
def VlistOf (S : Grid) : List Cell := none :: (qdedup (vals S)).map some

/-- Step-counting measure for the relaxation: how many candidate levels lie
at or below the current level, summed over all cells. -/
def μfill (S : Grid) (R C : ℕ) (W : Grid) : ℕ :=
  sumF (fun p => cntP (fun v => oLE v (gget W p.1 p.2)) (VlistOf S)) (posList R C)

/-- Number of sweeps guaranteed to reach the relaxation fixpoint. -/
def fillFuel (R C : ℕ) (S : Grid) : ℕ := μfill S R C (W0 R C S)

/-- The converged working grid. -/
def Wfix (R C : ℕ) (S : Grid) : Grid :=
  (fstep R C S)^[fillFuel R C S] (W0 R C S)

/-- `Fill` (script step 1): the filled surface.  Modelled from the spec
(§4.1); nodata cells stay nodata, data cells carry their converged level. -/
def Fill (R C : ℕ) (S : Grid) : Grid := Wfix R C S

/-! ### Convergence of the fill relaxation -/

theorem nthD_ge {α : Type} (l : List α) (i : ℕ) (d : α) (h : l.length ≤ i) :
    nthD l i d = d := by
  induction l generalizing i with
  | nil => exact nthD_nil i d
  | cons a l ih =>
    cases i with
    | zero => simp at h
    | succ i => simpa [nthD_cons_succ] using ih i (by simpa using h)

theorem nthD_map {α β : Type} (f : α → β) (l : List α) (i : ℕ) (d : β) (d' : α)
    (h : i < l.length) : nthD (l.map f) i d = f (nthD l i d') := by
  induction l generalizing i with
  | nil => simp at h
  | cons a l ih =>
    cases i with
    | zero => rfl
    | succ i => simpa [nthD_cons_succ] using ih i (by simpa using h)

theorem gget_fstep (R C : ℕ) (S W : Grid) (r c : ℕ) (hr : r < R) (hc : c < C) :
    gget (fstep R C S W) r c = fillCell R C S W r c :=
  gget_build R C _ r c hr hc

theorem gget_fstep_out (R C : ℕ) (S W : Grid) (r c : ℕ) (h : ¬(r < R ∧ c < C)) :
    gget (fstep R C S W) r c = none :=
  gget_build_none R C _ r c h

theorem gget_W0 (R C : ℕ) (S : Grid) (r c : ℕ) (hr : r < R) (hc : c < C) :
    gget (W0 R C S) r c =
      match gget S r c with
      | none => none
      | some v => if isBdry R C S r c then some v else none :=
  gget_build R C _ r c hr hc

theorem gget_W0_out (R C : ℕ) (S : Grid) (r c : ℕ) (h : ¬(r < R ∧ c < C)) :
    gget (W0 R C S) r c = none :=
  gget_build_none R C _ r c h

theorem oLE_none_right (x : Cell) : oLE x none = true := by
  cases x <;> rfl

theorem fillCell_nodata (R C : ℕ) (S W : Grid) (r c : ℕ) (h : gget S r c = none) :
    fillCell R C S W r c = none := by
  unfold fillCell; rw [h]

theorem fillCell_bdry (R C : ℕ) (S W : Grid) (r c : ℕ) (v : ℤ)
    (h : gget S r c = some v) (hbd : isBdry R C S r c = true) :
    fillCell R C S W r c = some v := by
  unfold fillCell; rw [h]; simp [hbd]

theorem fillCell_interior (R C : ℕ) (S W : Grid) (r c : ℕ) (v : ℤ)
    (h : gget S r c = some v) (hbd : isBdry R C S r c = false) :
    fillCell R C S W r c =
      match minNbr W r c with
      | none => none
      | some m => some (max v m) := by
  unfold fillCell; rw [h]; simp [hbd]

/-- Pointwise order on working grids. -/
def WleP (W W' : Grid) : Prop := ∀ r c, oLE (gget W r c) (gget W' r c) = true

theorem minNbr_mono (W W' : Grid) (h : WleP W W') (r c : ℕ) :
    oLE (minNbr W r c) (minNbr W' r c) = true := by
  unfold minNbr
  apply foldMin_mono
  · simp
  · intro i
    by_cases hi : i < (nbrs r c).length
    · rw [nthD_map _ _ i none (0, 0) hi, nthD_map _ _ i none (0, 0) hi]
      exact h _ _
    · rw [nthD_ge _ i none (by simpa using (by omega : (nbrs r c).length ≤ i)),
        nthD_ge _ i none (by simpa using (by omega : (nbrs r c).length ≤ i))]
      rfl

theorem fstep_mono (R C : ℕ) (S W W' : Grid) (h : WleP W W') :
    WleP (fstep R C S W) (fstep R C S W') := by
  intro r c
  by_cases hb : r < R ∧ c < C
  · rw [gget_fstep R C S W r c hb.1 hb.2, gget_fstep R C S W' r c hb.1 hb.2]
    unfold fillCell
    cases hS : gget S r c with
    | none => simp [oLE]
    | some v =>
      by_cases hbd : isBdry R C S r c
      · simp [hbd, oLE_refl]
      · simp only [hbd, if_false]
        have hm := minNbr_mono W W' h r c
        cases hm' : minNbr W' r c with
        | none => simp [oLE]
        | some m' =>
          rw [hm'] at hm
          cases hm'' : minNbr W r c with
          | none => rw [hm''] at hm; simp [oLE] at hm
          | some m =>
            rw [hm''] at hm
            have : m ≤ m' := by simpa [oLE] using hm
            simpa [oLE] using max_le_max (le_refl v) this
  · rw [gget_fstep_out R C S W r c hb, gget_fstep_out R C S W' r c hb]
    rfl

theorem fstep_W0_le (R C : ℕ) (S : Grid) : WleP (fstep R C S (W0 R C S)) (W0 R C S) := by
  intro r c
  by_cases hb : r < R ∧ c < C
  · rw [gget_fstep R C S _ r c hb.1 hb.2, gget_W0 R C S r c hb.1 hb.2]
    unfold fillCell
    cases hS : gget S r c with
    | none => simp [oLE]
    | some v =>
      by_cases hbd : isBdry R C S r c
      · simp [hbd, oLE_refl]
      · simp [hbd, oLE]
  · rw [gget_fstep_out R C S _ r c hb, gget_W0_out R C S r c hb]
    rfl

theorem chain_le (R C : ℕ) (S : Grid) (k : ℕ) :
    WleP ((fstep R C S)^[k + 1] (W0 R C S)) ((fstep R C S)^[k] (W0 R C S)) := by
  induction k with
  | zero => simpa using fstep_W0_le R C S
  | succ k ih =>
    have h2 := fstep_mono R C S _ _ ih
    rw [← Function.iterate_succ_apply' (fstep R C S) (k + 1),
      ← Function.iterate_succ_apply' (fstep R C S) k] at h2
    exact h2

theorem mem_rowVals (row : List Cell) (v : ℤ) (h : some v ∈ row) : v ∈ rowVals row := by
  induction row with
  | nil => cases h
  | cons a l ih =>
    rcases List.mem_cons.mp h with rfl | hmem
    · simp [rowVals]
    · cases a with
      | none => simpa [rowVals] using ih hmem
      | some w => simp [rowVals, ih hmem]

theorem mem_vals (S : Grid) (row : List Cell) (v : ℤ) (hrow : row ∈ S)
    (h : some v ∈ row) : v ∈ vals S := by
  induction S with
  | nil => cases hrow
  | cons r g ih =>
    rcases List.mem_cons.mp hrow with rfl | hmem
    · simp [vals, List.mem_append]; left; exact mem_rowVals row v h
    · simp [vals, List.mem_append]; right; exact ih hmem

theorem gget_mem_vals (S : Grid) (r c : ℕ) (v : ℤ) (h : gget S r c = some v) :
    v ∈ vals S := by
  unfold gget at h
  rcases nthD_mem_or_default S r [] with hrow | hrow
  · rcases nthD_mem_or_default (nthD S r []) c none with hc | hc
    · rw [h] at hc
      exact mem_vals S _ v hrow hc
    · rw [h] at hc; cases hc
  · rw [hrow] at h
    rw [nthD_nil] at h
    cases h

theorem mem_VlistOf_none (S : Grid) : none ∈ VlistOf S := List.mem_cons_self _ _

theorem mem_VlistOf_some (S : Grid) (v : ℤ) (h : v ∈ vals S) : some v ∈ VlistOf S := by
  unfold VlistOf
  exact List.mem_cons_of_mem _ (List.mem_map_of_mem some ((mem_qdedup _ v).mpr h))

theorem mem_vals_of_VlistOf (S : Grid) (v : ℤ) (h : some v ∈ VlistOf S) : v ∈ vals S := by
  unfold VlistOf at h
  rcases List.mem_cons.mp h with h | h
  · cases h
  · obtain ⟨w, hw, hww⟩ := List.mem_map.mp h
    cases hww
    exact (mem_qdedup _ v).mp hw

/-- All levels held by a working grid are candidate levels of `S`. -/
def Wvals (S W : Grid) : Prop := ∀ r c, gget W r c ∈ VlistOf S

theorem Wvals_W0 (R C : ℕ) (S : Grid) : Wvals S (W0 R C S) := by
  intro r c
  by_cases hb : r < R ∧ c < C
  · rw [gget_W0 R C S r c hb.1 hb.2]
    cases hS : gget S r c with
    | none => exact mem_VlistOf_none S
    | some v =>
      by_cases hbd : isBdry R C S r c
      · simpa [hbd] using mem_VlistOf_some S v (gget_mem_vals S r c v hS)
      · simpa [hbd] using mem_VlistOf_none S
  · rw [gget_W0_out R C S r c hb]
    exact mem_VlistOf_none S

theorem Wvals_fstep (R C : ℕ) (S W : Grid) (h : Wvals S W) : Wvals S (fstep R C S W) := by
  intro r c
  by_cases hb : r < R ∧ c < C
  · rw [gget_fstep R C S W r c hb.1 hb.2]
    cases hS : gget S r c with
    | none => rw [fillCell_nodata R C S W r c hS]; exact mem_VlistOf_none S
    | some v =>
      by_cases hbd : isBdry R C S r c
      · rw [fillCell_bdry R C S W r c v hS hbd]
        exact mem_VlistOf_some S v (gget_mem_vals S r c v hS)
      · rw [fillCell_interior R C S W r c v hS (by simpa using hbd)]
        cases hm : minNbr W r c with
        | none => exact mem_VlistOf_none S
        | some m =>
          have hmem : m ∈ vals S := by
            unfold minNbr at hm
            rcases foldMin_mem ((nbrs r c).map (fun p => gget W p.1 p.2)) with h' | h'
            · rw [hm] at h'; cases h'
            · rw [hm] at h'
              obtain ⟨p, _, hp⟩ := List.mem_map.mp h'
              have := h p.1 p.2
              rw [hp] at this
              exact mem_vals_of_VlistOf S m this
          have hv : v ∈ vals S := gget_mem_vals S r c v hS
          show some (max v m) ∈ VlistOf S
          rcases max_choice v m with hmax | hmax
          · rw [hmax]; exact mem_VlistOf_some S v hv
          · rw [hmax]; exact mem_VlistOf_some S m hmem
  · rw [gget_fstep_out R C S W r c hb]
    exact mem_VlistOf_none S

theorem Wvals_chain (R C : ℕ) (S : Grid) (k : ℕ) :
    Wvals S ((fstep R C S)^[k] (W0 R C S)) := by
  induction k with
  | zero => exact Wvals_W0 R C S
  | succ k ih =>
    rw [Function.iterate_succ_apply' (fstep R C S) k]
    exact Wvals_fstep R C S _ ih

theorem grid_eq_of_gget (R C : ℕ) (F F' : ℕ → ℕ → Cell)
    (h : ∀ r < R, ∀ c < C, gget (build R C F) r c = gget (build R C F') r c) :
    build R C F = build R C F' := by
  apply build_ext
  intro r hr c hc
  have := h r hr c hc
  rwa [gget_build R C F r c hr hc, gget_build R C F' r c hr hc] at this

theorem μfill_lt (R C : ℕ) (S W W' : Grid) (F F' : ℕ → ℕ → Cell)
    (hW : W = build R C F) (hW' : W' = build R C F')
    (hle : WleP W' W) (hvals : Wvals S W) (hne : W' ≠ W) :
    μfill S R C W' < μfill S R C W := by
  have hdiff : ∃ r, r < R ∧ ∃ c, c < C ∧ gget W' r c ≠ gget W r c := by
    by_contra hall
    push_neg at hall
    apply hne
    rw [hW, hW']
    exact grid_eq_of_gget R C F' F (fun r hr c hc => by
      rw [← hW, ← hW']; exact hall r hr c hc)
  obtain ⟨r, hr, c, hc, hne'⟩ := hdiff
  unfold μfill
  apply sumF_lt_sumF (fun p => cntP (fun v => oLE v (gget W' p.1 p.2)) (VlistOf S))
      (fun p => cntP (fun v => oLE v (gget W p.1 p.2)) (VlistOf S)) (posList R C)
      (fun p _ => cntP_le_cntP _ _ _ (fun v _ hv => oLE_trans v _ _ hv (hle p.1 p.2)))
      (r, c) (mem_posList R C r c hr hc)
  apply cntP_lt_cntP _ _ _ (fun v _ hv => oLE_trans v _ _ hv (hle r c))
      (gget W r c) (hvals r c) (oLE_refl _)
  by_cases hww : oLE (gget W r c) (gget W' r c) = true
  · exact absurd (oLE_antisymm _ _ (hle r c) hww) hne'
  · simpa using hww

theorem fstep_Wfix (R C : ℕ) (S : Grid) :
    fstep R C S (Wfix R C S) = Wfix R C S := by
  unfold Wfix fillFuel
  apply iterate_fix (fstep R C S) (μfill S R C) (W0 R C S)
  intro k
  by_cases heq : fstep R C S ((fstep R C S)^[k] (W0 R C S)) = (fstep R C S)^[k] (W0 R C S)
  · left; exact heq
  · right
    rw [Function.iterate_succ_apply' (fstep R C S) k]
    have hbuild : ∃ F, (fstep R C S)^[k] (W0 R C S) = build R C F := by
      cases k with
      | zero => exact ⟨_, rfl⟩
      | succ k =>
        rw [Function.iterate_succ_apply' (fstep R C S) k]
        exact ⟨_, rfl⟩
    obtain ⟨F, hF⟩ := hbuild
    apply μfill_lt R C S _ _ F (fillCell R C S ((fstep R C S)^[k] (W0 R C S))) hF rfl
    · have := chain_le R C S k
      rwa [Function.iterate_succ_apply' (fstep R C S) k] at this
    · exact Wvals_chain R C S k
    · exact heq

theorem gget_Wfix (R C : ℕ) (S : Grid) (r c : ℕ) (hr : r < R) (hc : c < C) :
    gget (Wfix R C S) r c = fillCell R C S (Wfix R C S) r c := by
  conv_lhs => rw [← fstep_Wfix R C S]
  exact gget_fstep R C S _ r c hr hc

theorem gget_Wfix_out (R C : ℕ) (S : Grid) (r c : ℕ) (h : ¬(r < R ∧ c < C)) :
    gget (Wfix R C S) r c = none := by
  conv_lhs => rw [← fstep_Wfix R C S]
  exact gget_fstep_out R C S _ r c h

/-! ### Escape-walk characterization of the filled surface -/

theorem nthD_mem {α : Type} (l : List α) (n : ℕ) (d : α) (h : n < l.length) :
    nthD l n d ∈ l := by
  induction l generalizing n with
  | nil => simp at h
  | cons a l ih =>
    cases n with
    | zero => exact List.mem_cons_self a l
    | succ n =>
      rw [nthD_cons_succ]
      exact List.mem_cons_of_mem a (ih n (by simpa using h))

theorem gget_some_bounds (R C : ℕ) (S : Grid) (hwf : wf R C S) (r c : ℕ)
    (h : gget S r c ≠ none) : r < R ∧ c < C := by
  obtain ⟨hlenS, hrows⟩ := hwf
  unfold gget at h
  by_cases hr : r < S.length
  · have hrow : nthD S r [] ∈ S := nthD_mem S r [] hr
    have hlen : (nthD S r []).length = C := hrows _ hrow
    refine ⟨by omega, ?_⟩
    by_contra hc
    rw [nthD_ge _ c none (by omega)] at h
    exact h rfl
  · rw [nthD_ge S r [] (by omega), nthD_nil] at h
    exact absurd rfl h

/-- `Escape R C S t r c`: there is a 4-connected walk from `(r, c)` to a
boundary (pour-point) cell that stays on data cells of elevation at most `t`.
Per the glossary, a cell sits in no depression at its own level exactly when
it has such a non-ascending escape route. -/
inductive Escape (R C : ℕ) (S : Grid) (t : ℤ) : ℕ → ℕ → Prop
  | base (r c : ℕ) (v : ℤ) : isBdry R C S r c = true → gget S r c = some v →
      v ≤ t → Escape R C S t r c
  | step (r c r' c' : ℕ) (v : ℤ) : gget S r c = some v → v ≤ t →
      adjP r c r' c' → Escape R C S t r' c' → Escape R C S t r c

theorem escape_of_W (R C : ℕ) (S : Grid) (t : ℤ) (k : ℕ) :
    ∀ r c w, gget ((fstep R C S)^[k] (W0 R C S)) r c = some w → w ≤ t →
      Escape R C S t r c := by
  induction k with
  | zero =>
    intro r c w hw hwt
    rw [Function.iterate_zero_apply] at hw
    by_cases hb : r < R ∧ c < C
    · rw [gget_W0 R C S r c hb.1 hb.2] at hw
      cases hS : gget S r c with
      | none => rw [hS] at hw; cases hw
      | some v =>
        rw [hS] at hw
        have hw' : (if isBdry R C S r c = true then some v else none) = some w := hw
        by_cases hbd : isBdry R C S r c
        · rw [if_pos hbd] at hw'
          injection hw' with hvw
          exact Escape.base r c v hbd hS (by rw [hvw]; exact hwt)
        · rw [if_neg hbd] at hw'; cases hw'
    · rw [gget_W0_out R C S r c hb] at hw; cases hw
  | succ k ih =>
    intro r c w hw hwt
    rw [Function.iterate_succ_apply' (fstep R C S) k] at hw
    by_cases hb : r < R ∧ c < C
    · rw [gget_fstep R C S _ r c hb.1 hb.2] at hw
      cases hS : gget S r c with
      | none => rw [fillCell_nodata R C S _ r c hS] at hw; cases hw
      | some v =>
        by_cases hbd : isBdry R C S r c
        · rw [fillCell_bdry R C S _ r c v hS hbd] at hw
          injection hw with hvw
          exact Escape.base r c v hbd hS (by rw [hvw]; exact hwt)
        · rw [fillCell_interior R C S _ r c v hS (by simpa using hbd)] at hw
          cases hm : minNbr ((fstep R C S)^[k] (W0 R C S)) r c with
          | none => rw [hm] at hw; cases hw
          | some m =>
            rw [hm] at hw
            cases hw
            have hvt : v ≤ t := le_trans (le_max_left v m) hwt
            have hmt : m ≤ t := le_trans (le_max_right v m) hwt
            have hmem : ∃ p ∈ nbrs r c,
                gget ((fstep R C S)^[k] (W0 R C S)) p.1 p.2 = some m := by
              unfold minNbr at hm
              rcases foldMin_mem ((nbrs r c).map
                  (fun p => gget ((fstep R C S)^[k] (W0 R C S)) p.1 p.2)) with h' | h'
              · rw [hm] at h'; cases h'
              · rw [hm] at h'
                obtain ⟨p, hp, hpe⟩ := List.mem_map.mp h'
                exact ⟨p, hp, hpe⟩
            obtain ⟨p, hp, hpe⟩ := hmem
            exact Escape.step r c p.1 p.2 v hS hvt hp (ih p.1 p.2 m hpe hmt)
    · rw [gget_fstep_out R C S _ r c hb] at hw; cases hw

theorem W_of_escape (R C : ℕ) (S : Grid) (hwf : wf R C S) (t : ℤ) (r c : ℕ)
    (h : Escape R C S t r c) :
    ∃ w, gget (Wfix R C S) r c = some w ∧ w ≤ t := by
  induction h with
  | base r c v hbd hS hvt =>
    have hb := gget_some_bounds R C S hwf r c (by rw [hS]; exact Option.some_ne_none v)
    rw [gget_Wfix R C S r c hb.1 hb.2, fillCell_bdry R C S _ r c v hS hbd]
    exact ⟨v, rfl, hvt⟩
  | step r c r' c' v hS hvt hadj hesc ih =>
    obtain ⟨w', hw', hw't⟩ := ih
    have hb := gget_some_bounds R C S hwf r c (by rw [hS]; exact Option.some_ne_none v)
    rw [gget_Wfix R C S r c hb.1 hb.2]
    by_cases hbd : isBdry R C S r c
    · rw [fillCell_bdry R C S _ r c v hS hbd]
      exact ⟨v, rfl, hvt⟩
    · rw [fillCell_interior R C S _ r c v hS (by simpa using hbd)]
      have hin : some w' ∈ (nbrs r c).map (fun p => gget (Wfix R C S) p.1 p.2) := by
        have := List.mem_map_of_mem (fun p => gget (Wfix R C S) p.1 p.2) hadj
        rwa [show (fun p => gget (Wfix R C S) p.1 p.2) ((r', c') : ℕ × ℕ) =
          gget (Wfix R C S) r' c' from rfl, hw'] at this
      have hle := foldMin_le _ _ hin
      cases hm : minNbr (Wfix R C S) r c with
      | none =>
        unfold minNbr at hm
        rw [hm] at hle
        simp [oLE] at hle
      | some m =>
        unfold minNbr at hm
        rw [hm] at hle
        have hmw : m ≤ w' := by simpa [oLE] using hle
        exact ⟨max v m, rfl, max_le hvt (le_trans hmw hw't)⟩

/-- Master characterization: the converged fill level at a cell is at most
`t` exactly when the cell has an escape walk at level `t`. -/
theorem Wfix_le_iff (R C : ℕ) (S : Grid) (hwf : wf R C S) (t : ℤ) (r c : ℕ) :
    (∃ w, gget (Wfix R C S) r c = some w ∧ w ≤ t) ↔ Escape R C S t r c := by
  constructor
  · intro ⟨w, hw, hwt⟩
    exact escape_of_W R C S t (fillFuel R C S) r c w hw hwt
  · exact W_of_escape R C S hwf t r c

/-! ### Basic properties of the filled surface -/

theorem W_ge_S (R C : ℕ) (S : Grid) (k : ℕ) :
    ∀ r c v w, gget S r c = some v →
      gget ((fstep R C S)^[k] (W0 R C S)) r c = some w → v ≤ w := by
  induction k with
  | zero =>
    intro r c v w hS hw
    rw [Function.iterate_zero_apply] at hw
    by_cases hb : r < R ∧ c < C
    · rw [gget_W0 R C S r c hb.1 hb.2, hS] at hw
      have hw' : (if isBdry R C S r c = true then some v else none) = some w := hw
      by_cases hbd : isBdry R C S r c
      · rw [if_pos hbd] at hw'; cases hw'; exact le_refl v
      · rw [if_neg hbd] at hw'; cases hw'
    · rw [gget_W0_out R C S r c hb] at hw; cases hw
  | succ k ih =>
    intro r c v w hS hw
    rw [Function.iterate_succ_apply' (fstep R C S) k] at hw
    by_cases hb : r < R ∧ c < C
    · rw [gget_fstep R C S _ r c hb.1 hb.2] at hw
      by_cases hbd : isBdry R C S r c
      · rw [fillCell_bdry R C S _ r c v hS hbd] at hw; cases hw; exact le_refl v
      · rw [fillCell_interior R C S _ r c v hS (by simpa using hbd)] at hw
        cases hm : minNbr ((fstep R C S)^[k] (W0 R C S)) r c with
        | none => rw [hm] at hw; cases hw
        | some m => rw [hm] at hw; cases hw; exact le_max_left v m
    · rw [gget_fstep_out R C S _ r c hb] at hw; cases hw

theorem Fill_ge_S (R C : ℕ) (S : Grid) (r c : ℕ) (v w : ℤ)
    (hS : gget S r c = some v) (hw : gget (Fill R C S) r c = some w) : v ≤ w :=
  W_ge_S R C S (fillFuel R C S) r c v w hS hw

theorem Fill_nodata (R C : ℕ) (S : Grid) (r c : ℕ) (hS : gget S r c = none) :
    gget (Fill R C S) r c = none := by
  by_cases hb : r < R ∧ c < C
  · unfold Fill
    rw [gget_Wfix R C S r c hb.1 hb.2, fillCell_nodata R C S _ r c hS]
  · unfold Fill
    exact gget_Wfix_out R C S r c hb

/-- The overall maximum data value (any upper bound of the data values). -/
def maxVal (S : Grid) : ℤ := (vals S).foldr max 0

theorem le_maxVal (S : Grid) (v : ℤ) (h : v ∈ vals S) : v ≤ maxVal S := by
  unfold maxVal
  generalize vals S = l at h ⊢
  induction l with
  | nil => cases h
  | cons a l ih =>
    rcases List.mem_cons.mp h with rfl | hmem
    · exact le_max_left _ _
    · exact le_trans (ih hmem) (le_max_right _ _)

theorem escape_total (R C : ℕ) (S : Grid) (_hwf : wf R C S) :
    ∀ c r v, gget S r c = some v → Escape R C S (maxVal S) r c := by
  intro c
  induction c using Nat.strong_induction_on with
  | _ c ih =>
    intro r v hS
    have hvm : v ≤ maxVal S := le_maxVal S v (gget_mem_vals S r c v hS)
    by_cases hbd : isBdry R C S r c
    · exact Escape.base r c v hbd hS hvm
    · have hc0 : c ≠ 0 := by
        intro hc
        apply hbd
        unfold isBdry
        simp [hc]
      have hmem : ((r, c - 1) : ℕ × ℕ) ∈ nbrs r c := by
        rw [mem_nbrs_iff]
        right; left
        omega
      have hleft : gget S r (c - 1) ≠ none := by
        intro hnone
        apply hbd
        unfold isBdry
        simp only [Bool.or_eq_true, List.any_eq_true]
        right
        exact ⟨(r, c - 1), hmem, by
          show (gget S r (c - 1)).isNone = true
          rw [hnone]; rfl⟩
      cases hleft' : gget S r (c - 1) with
      | none => exact absurd hleft' hleft
      | some v' =>
        exact Escape.step r c r (c - 1) v hS hvm hmem
          (ih (c - 1) (by omega) r v' hleft')

theorem Fill_total (R C : ℕ) (S : Grid) (hwf : wf R C S) (r c : ℕ) (v : ℤ)
    (hS : gget S r c = some v) :
    ∃ w, gget (Fill R C S) r c = some w ∧ v ≤ w ∧ w ≤ maxVal S := by
  obtain ⟨w, hw, hwt⟩ :=
    W_of_escape R C S hwf (maxVal S) r c (escape_total R C S hwf c r v hS)
  exact ⟨w, hw, Fill_ge_S R C S r c v w hS hw, hwt⟩

theorem Fill_edge (R C : ℕ) (S : Grid) (hwf : wf R C S) (r c : ℕ)
    (h : r = 0 ∨ c = 0 ∨ r + 1 = R ∨ c + 1 = C) :
    gget (Fill R C S) r c = gget S r c := by
  cases hS : gget S r c with
  | none => exact Fill_nodata R C S r c hS
  | some v =>
    have hb := gget_some_bounds R C S hwf r c (by rw [hS]; exact Option.some_ne_none v)
    have hbd : isBdry R C S r c = true := by
      unfold isBdry
      simp only [Bool.or_eq_true, decide_eq_true_eq, List.any_eq_true]
      tauto
    unfold Fill
    rw [gget_Wfix R C S r c hb.1 hb.2, fillCell_bdry R C S _ r c v hS hbd]

/-! ### Idempotence of the fill -/

theorem anyCongr {α : Type} (l : List α) (p q : α → Bool) (h : ∀ a ∈ l, p a = q a) :
    l.any p = l.any q := by
  induction l with
  | nil => rfl
  | cons a t ih =>
    simp only [List.any_cons]
    rw [h a (List.mem_cons_self a t), ih (fun b hb => h b (List.mem_cons_of_mem a hb))]

theorem iterate_is_build (R C : ℕ) (S : Grid) (k : ℕ) :
    ∃ F, (fstep R C S)^[k] (W0 R C S) = build R C F := by
  cases k with
  | zero => exact ⟨_, rfl⟩
  | succ k =>
    rw [Function.iterate_succ_apply' (fstep R C S) k]
    exact ⟨_, rfl⟩

theorem wf_Fill (R C : ℕ) (S : Grid) : wf R C (Fill R C S) := by
  obtain ⟨F, hF⟩ := iterate_is_build R C S (fillFuel R C S)
  unfold Fill Wfix
  rw [hF]
  exact wf_build R C F

theorem Fill_data_iff (R C : ℕ) (S : Grid) (hwf : wf R C S) (r c : ℕ) :
    gget (Fill R C S) r c = none ↔ gget S r c = none := by
  constructor
  · intro h
    cases hS : gget S r c with
    | none => rfl
    | some v =>
      obtain ⟨w, hw, _, _⟩ := Fill_total R C S hwf r c v hS
      rw [h] at hw
      cases hw
  · exact Fill_nodata R C S r c

theorem isBdry_Fill (R C : ℕ) (S : Grid) (hwf : wf R C S) (r c : ℕ) :
    isBdry R C (Fill R C S) r c = isBdry R C S r c := by
  unfold isBdry
  have : ((nbrs r c).any fun p => (gget (Fill R C S) p.1 p.2).isNone) =
      ((nbrs r c).any fun p => (gget S p.1 p.2).isNone) := by
    apply anyCongr
    intro p _
    show (gget (Fill R C S) p.1 p.2).isNone = (gget S p.1 p.2).isNone
    by_cases hp : gget S p.1 p.2 = none
    · rw [hp, (Fill_data_iff R C S hwf p.1 p.2).mpr hp]
    · cases hS : gget S p.1 p.2 with
      | none => exact absurd hS hp
      | some v =>
        obtain ⟨w, hw, _, _⟩ := Fill_total R C S hwf p.1 p.2 v hS
        rw [hw]
        rfl
  rw [this]

theorem Fill_at_bdry (R C : ℕ) (S : Grid) (hwf : wf R C S) (r c : ℕ) (v : ℤ)
    (hS : gget S r c = some v) (hbd : isBdry R C S r c = true) :
    gget (Fill R C S) r c = some v := by
  have hb := gget_some_bounds R C S hwf r c (by rw [hS]; exact Option.some_ne_none v)
  unfold Fill
  rw [gget_Wfix R C S r c hb.1 hb.2, fillCell_bdry R C S _ r c v hS hbd]

theorem escape_transfer (R C : ℕ) (S : Grid) (hwf : wf R C S) (t : ℤ) (r c : ℕ) :
    Escape R C S t r c ↔ Escape R C (Fill R C S) t r c := by
  constructor
  · intro h
    induction h with
    | base r c v hbd hS hvt =>
      exact Escape.base r c v (by rw [isBdry_Fill R C S hwf r c]; exact hbd)
        (Fill_at_bdry R C S hwf r c v hS hbd) hvt
    | step r c r' c' v hS hvt hadj hesc ih =>
      have hEsc : Escape R C S t r c := Escape.step r c r' c' v hS hvt hadj hesc
      obtain ⟨w, hw, hwt⟩ := W_of_escape R C S hwf t r c hEsc
      exact Escape.step r c r' c' w hw hwt hadj ih
  · intro h
    induction h with
    | base r c w hbd hF hwt =>
      cases hS : gget S r c with
      | none =>
        rw [Fill_nodata R C S r c hS] at hF
        cases hF
      | some v =>
        have hvw := Fill_ge_S R C S r c v w hS hF
        exact Escape.base r c v (by rw [← isBdry_Fill R C S hwf r c]; exact hbd) hS
          (le_trans hvw hwt)
    | step r c r' c' w hF hwt hadj hesc ih =>
      cases hS : gget S r c with
      | none =>
        rw [Fill_nodata R C S r c hS] at hF
        cases hF
      | some v =>
        have hvw := Fill_ge_S R C S r c v w hS hF
        exact Escape.step r c r' c' v hS (le_trans hvw hwt) hadj ih

theorem Fill_idem (R C : ℕ) (S : Grid) (hwf : wf R C S) :
    Fill R C (Fill R C S) = Fill R C S := by
  have hwf2 : wf R C (Fill R C S) := wf_Fill R C S
  obtain ⟨F1, hF1⟩ := iterate_is_build R C (Fill R C S) (fillFuel R C (Fill R C S))
  obtain ⟨F2, hF2⟩ := iterate_is_build R C S (fillFuel R C S)
  have key : ∀ r < R, ∀ c < C, gget (Fill R C (Fill R C S)) r c = gget (Fill R C S) r c := by
    intro r _ c _
    cases hS : gget S r c with
    | none =>
      rw [Fill_nodata R C (Fill R C S) r c (Fill_nodata R C S r c hS),
        Fill_nodata R C S r c hS]
    | some v =>
      obtain ⟨w, hw, hvw, _⟩ := Fill_total R C S hwf r c v hS
      obtain ⟨w2, hw2, hww2, _⟩ := Fill_total R C (Fill R C S) hwf2 r c w hw
      have hEsc : Escape R C S w r c :=
        (Wfix_le_iff R C S hwf w r c).mp ⟨w, hw, le_refl w⟩
      have hEsc2 : Escape R C (Fill R C S) w r c :=
        (escape_transfer R C S hwf w r c).mp hEsc
      obtain ⟨w2', hw2', hw2't⟩ := W_of_escape R C (Fill R C S) hwf2 w r c hEsc2
      have : w2' = w2 := by
        have := hw2'.symm.trans hw2
        injection this
      rw [hw2, hw]
      rw [this] at hw2't
      exact congrArg some (le_antisymm hw2't hww2)
  have hF1' : Fill R C (Fill R C S) = build R C F1 := hF1
  have hF2' : Fill R C S = build R C F2 := hF2
  rw [hF1', hF2'] at key
  rw [hF1', hF2']
  exact grid_eq_of_gget R C F1 F2 key

/-! ### Steps 2-3: the sink depth rasters -/

/-- Step 2: `sink = Raster("filled_dem") - Raster(DEM)`; raster subtraction
is cellwise and nodata wherever either operand is nodata. -/
def sink (R C : ℕ) (S : Grid) : Grid :=
  let F := Fill R C S
  build R C fun r c =>
    match gget F r c, gget S r c with
    | some f, some v => some (f - v)
    | _, _ => none

/-- Step 2: `SNK = Con(sink > 0, sink)`: the positive depths, nodata
elsewhere (`Con` with no else-branch yields nodata). -/
def snk (R C : ℕ) (S : Grid) : Grid :=
  let K := sink R C S
  build R C fun r c =>
    match gget K r c with
    | some s => if 0 < s then some s else none
    | none => none

/-- The cells holding data in a raster, as a boolean mask. -/
def maskOf (G : Grid) : ℕ → ℕ → Bool := fun r c => (gget G r c).isSome

/-- The cells of the depression mask: step 3's `MSK = Con(SNK > 0, 1)` holds
data exactly where `SNK` does. -/
def mskAt (R C : ℕ) (S : Grid) : ℕ → ℕ → Bool := maskOf (snk R C S)

/-! ### Steps 4-5: region labelling (connected components of a mask)

Modelled from the spec: the script delegates region formation to
`RasterToPolygon` (`NO_SIMPLIFY`) and uses the resulting polygons as the
zones of `ZonalStatistics`; §4.2 specifies deterministic 4-connected
component labelling with labels `1..N`, `0` reserved for background.  We
compute components by minimum-label propagation to a fixpoint and then
renumber the surviving labels `1..N` in raster-scan discovery order. -/

/-- Initial labelling: each mask cell gets its distinct raster-scan index. -/
def labL0 (R C : ℕ) (m : ℕ → ℕ → Bool) : LGrid :=
  build R C fun r c => if m r c then r * C + c + 1 else 0

/-- One propagation update: a mask cell takes the minimum label among itself
and its mask 4-neighbours; background stays `0`. -/
def labCell (R C : ℕ) (m : ℕ → ℕ → Bool) (L : LGrid) (r c : ℕ) : ℕ :=
  if m r c then
    (nbrs r c).foldr (fun p acc => if m p.1 p.2 then min (lget L p.1 p.2) acc else acc)
      (lget L r c)
  else 0

/-- One propagation sweep. -/
def lstep (R C : ℕ) (m : ℕ → ℕ → Bool) (L : LGrid) : LGrid :=
  build R C (labCell R C m L)

/-- Measure for the label propagation: total of all labels. -/
def μlab (R C : ℕ) (L : LGrid) : ℕ := sumF (fun p => lget L p.1 p.2) (posList R C)

/-- The converged raw label grid (labels are minimal raster-scan indices). -/
def labRaw (R C : ℕ) (m : ℕ → ℕ → Bool) : LGrid :=
  (lstep R C m)^[μlab R C (labL0 R C m)] (labL0 R C m)

/-- First occurrences of nonzero values, in order (`acc` holds those already
seen, reversed). -/
def firstIdsAux : List ℕ → List ℕ → List ℕ
  | [], acc => acc.reverse
  | x :: xs, acc =>
    if x ≠ 0 ∧ x ∉ acc then firstIdsAux xs (x :: acc) else firstIdsAux xs acc

/-- The raw labels in row-major raster-scan order. -/
def labList (R C : ℕ) (m : ℕ → ℕ → Bool) : List ℕ :=
  let L := labRaw R C m
  (posList R C).map (fun p => lget L p.1 p.2)

/-- The distinct nonzero raw labels in discovery order. -/
def labIds (R C : ℕ) (m : ℕ → ℕ → Bool) : List ℕ :=
  firstIdsAux (labList R C m) []

/-- Position of a value in a list. -/
def listIdx : List ℕ → ℕ → Option ℕ
  | [], _ => none
  | x :: xs, a => if x = a then some 0 else (listIdx xs a).map (· + 1)

/-- The final region id of a cell: raw labels renumbered `1..N` in discovery
order, `0` for background. -/
def labAt (R C : ℕ) (m : ℕ → ℕ → Bool) (r c : ℕ) : ℕ :=
  match listIdx (labIds R C m) (lget (labRaw R C m) r c) with
  | some i => i + 1
  | none => 0

/-! #### Convergence of the label propagation -/

theorem foldLab_le_init (m : ℕ → ℕ → Bool) (L : LGrid) (l : List (ℕ × ℕ)) (a : ℕ) :
    l.foldr (fun p acc => if m p.1 p.2 then min (lget L p.1 p.2) acc else acc) a ≤ a := by
  induction l with
  | nil => exact le_refl a
  | cons p l ih =>
    simp only [List.foldr_cons]
    by_cases hp : m p.1 p.2 <;> simp [hp]
    · right; exact ih
    · exact ih

theorem foldLab_ge (m : ℕ → ℕ → Bool) (L : LGrid) (l : List (ℕ × ℕ)) (a b : ℕ)
    (ha : b ≤ a) (h : ∀ p ∈ l, m p.1 p.2 = true → b ≤ lget L p.1 p.2) :
    b ≤ l.foldr (fun p acc => if m p.1 p.2 then min (lget L p.1 p.2) acc else acc) a := by
  induction l with
  | nil => exact ha
  | cons p l ih =>
    simp only [List.foldr_cons]
    have ihl := ih (fun q hq => h q (List.mem_cons_of_mem p hq))
    by_cases hp : m p.1 p.2 = true
    · rw [if_pos hp]
      exact le_min (h p (List.mem_cons_self p l) hp) ihl
    · rw [if_neg hp]
      exact ihl

theorem foldLab_cases (m : ℕ → ℕ → Bool) (L : LGrid) (l : List (ℕ × ℕ)) (a : ℕ) :
    (l.foldr (fun p acc => if m p.1 p.2 then min (lget L p.1 p.2) acc else acc) a = a) ∨
    ∃ p ∈ l, m p.1 p.2 = true ∧
      l.foldr (fun p acc => if m p.1 p.2 then min (lget L p.1 p.2) acc else acc) a =
        lget L p.1 p.2 := by
  induction l with
  | nil => left; rfl
  | cons p l ih =>
    simp only [List.foldr_cons]
    by_cases hp : m p.1 p.2 = true
    · rw [if_pos hp]
      rcases min_cases (lget L p.1 p.2)
        (l.foldr (fun p acc => if m p.1 p.2 then min (lget L p.1 p.2) acc else acc) a) with
        ⟨heq, _⟩ | ⟨heq, _⟩
      · right; exact ⟨p, List.mem_cons_self p l, hp, heq⟩
      · rw [heq]
        rcases ih with h | ⟨q, hq, hmq, he⟩
        · left; exact h
        · right; exact ⟨q, List.mem_cons_of_mem p hq, hmq, he⟩
    · rw [if_neg hp]
      rcases ih with h | ⟨q, hq, hmq, he⟩
      · left; exact h
      · right; exact ⟨q, List.mem_cons_of_mem p hq, hmq, he⟩

theorem foldLab_le_mem (m : ℕ → ℕ → Bool) (L : LGrid) (l : List (ℕ × ℕ)) (a : ℕ)
    (p : ℕ × ℕ) (hp : p ∈ l) (hm : m p.1 p.2 = true) :
    l.foldr (fun p acc => if m p.1 p.2 then min (lget L p.1 p.2) acc else acc) a ≤
      lget L p.1 p.2 := by
  induction l with
  | nil => cases hp
  | cons q l ih =>
    simp only [List.foldr_cons]
    rcases List.mem_cons.mp hp with rfl | hmem
    · rw [if_pos hm]
      exact min_le_left _ _
    · by_cases hq : m q.1 q.2 = true
      · rw [if_pos hq]
        exact le_trans (min_le_right _ _) (ih hmem)
      · rw [if_neg hq]
        exact ih hmem

theorem lget_lstep (R C : ℕ) (m : ℕ → ℕ → Bool) (L : LGrid) (r c : ℕ)
    (hr : r < R) (hc : c < C) : lget (lstep R C m L) r c = labCell R C m L r c :=
  lget_build R C _ r c hr hc

theorem lget_lstep_out (R C : ℕ) (m : ℕ → ℕ → Bool) (L : LGrid) (r c : ℕ)
    (h : ¬(r < R ∧ c < C)) : lget (lstep R C m L) r c = 0 :=
  lget_build_zero R C _ r c h

theorem lstep_le (R C : ℕ) (m : ℕ → ℕ → Bool) (L : LGrid) (r c : ℕ) :
    lget (lstep R C m L) r c ≤ lget L r c := by
  by_cases hb : r < R ∧ c < C
  · rw [lget_lstep R C m L r c hb.1 hb.2]
    unfold labCell
    by_cases hm : m r c = true
    · rw [if_pos hm]
      exact foldLab_le_init m L (nbrs r c) (lget L r c)
    · rw [if_neg hm]
      exact Nat.zero_le _
  · rw [lget_lstep_out R C m L r c hb]
    exact Nat.zero_le _

theorem lgrid_eq_of_lget (R C : ℕ) (F F' : ℕ → ℕ → ℕ)
    (h : ∀ r < R, ∀ c < C, lget (build R C F) r c = lget (build R C F') r c) :
    build R C F = build R C F' := by
  apply build_ext
  intro r hr c hc
  have := h r hr c hc
  rwa [lget_build R C F r c hr hc, lget_build R C F' r c hr hc] at this

theorem μlab_lt (R C : ℕ) (L L' : LGrid) (F F' : ℕ → ℕ → ℕ)
    (hL : L = build R C F) (hL' : L' = build R C F')
    (hle : ∀ r c, lget L' r c ≤ lget L r c) (hne : L' ≠ L) :
    μlab R C L' < μlab R C L := by
  have hdiff : ∃ r, r < R ∧ ∃ c, c < C ∧ lget L' r c ≠ lget L r c := by
    by_contra hall
    push_neg at hall
    apply hne
    rw [hL, hL']
    exact lgrid_eq_of_lget R C F' F (fun r hr c hc => by
      rw [← hL, ← hL']; exact hall r hr c hc)
  obtain ⟨r, hr, c, hc, hne'⟩ := hdiff
  unfold μlab
  apply sumF_lt_sumF (fun p => lget L' p.1 p.2) (fun p => lget L p.1 p.2) (posList R C)
      (fun p _ => hle p.1 p.2) (r, c) (mem_posList R C r c hr hc)
  exact lt_of_le_of_ne (hle r c) hne'

theorem labIter_is_build (R C : ℕ) (m : ℕ → ℕ → Bool) (k : ℕ) :
    ∃ F, (lstep R C m)^[k] (labL0 R C m) = build R C F := by
  cases k with
  | zero => exact ⟨_, rfl⟩
  | succ k =>
    rw [Function.iterate_succ_apply' (lstep R C m) k]
    exact ⟨_, rfl⟩

theorem lstep_labRaw (R C : ℕ) (m : ℕ → ℕ → Bool) :
    lstep R C m (labRaw R C m) = labRaw R C m := by
  unfold labRaw
  apply iterate_fix (lstep R C m) (μlab R C) (labL0 R C m)
  intro k
  by_cases heq : lstep R C m ((lstep R C m)^[k] (labL0 R C m)) =
      (lstep R C m)^[k] (labL0 R C m)
  · left; exact heq
  · right
    rw [Function.iterate_succ_apply' (lstep R C m) k]
    obtain ⟨F, hF⟩ := labIter_is_build R C m k
    exact μlab_lt R C _ _ F (labCell R C m ((lstep R C m)^[k] (labL0 R C m))) hF rfl
      (fun r c => lstep_le R C m _ r c) heq

/-! #### Region ids are nonzero exactly on the mask -/

theorem labIter_zero (R C : ℕ) (m : ℕ → ℕ → Bool) (k : ℕ) :
    ∀ r c, m r c = false → lget ((lstep R C m)^[k] (labL0 R C m)) r c = 0 := by
  induction k with
  | zero =>
    intro r c hm
    rw [Function.iterate_zero_apply]
    by_cases hb : r < R ∧ c < C
    · unfold labL0
      rw [lget_build R C _ r c hb.1 hb.2, hm]
      rfl
    · exact lget_build_zero R C _ r c hb
  | succ k ih =>
    intro r c hm
    rw [Function.iterate_succ_apply' (lstep R C m) k]
    by_cases hb : r < R ∧ c < C
    · rw [lget_lstep R C m _ r c hb.1 hb.2]
      unfold labCell
      rw [hm]
      rfl
    · exact lget_lstep_out R C m _ r c hb

theorem labIter_pos (R C : ℕ) (m : ℕ → ℕ → Bool)
    (hm : ∀ r c, m r c = true → r < R ∧ c < C) (k : ℕ) :
    ∀ r c, m r c = true → 1 ≤ lget ((lstep R C m)^[k] (labL0 R C m)) r c := by
  induction k with
  | zero =>
    intro r c hmr
    rw [Function.iterate_zero_apply]
    have hb := hm r c hmr
    unfold labL0
    rw [lget_build R C _ r c hb.1 hb.2, hmr]
    simp
  | succ k ih =>
    intro r c hmr
    rw [Function.iterate_succ_apply' (lstep R C m) k]
    have hb := hm r c hmr
    rw [lget_lstep R C m _ r c hb.1 hb.2]
    unfold labCell
    rw [hmr]
    simp only [if_true]
    exact foldLab_ge m _ (nbrs r c) _ 1 (ih r c hmr)
      (fun p _ hp => ih p.1 p.2 hp)

theorem labRaw_zero (R C : ℕ) (m : ℕ → ℕ → Bool) (r c : ℕ) (h : m r c = false) :
    lget (labRaw R C m) r c = 0 :=
  labIter_zero R C m _ r c h

theorem labRaw_pos (R C : ℕ) (m : ℕ → ℕ → Bool)
    (hm : ∀ r c, m r c = true → r < R ∧ c < C) (r c : ℕ) (h : m r c = true) :
    1 ≤ lget (labRaw R C m) r c :=
  labIter_pos R C m hm _ r c h

theorem firstIdsAux_cons (y : ℕ) (xs acc : List ℕ) :
    firstIdsAux (y :: xs) acc =
      if y ≠ 0 ∧ y ∉ acc then firstIdsAux xs (y :: acc) else firstIdsAux xs acc := rfl

theorem mem_firstIdsAux (l : List ℕ) : ∀ acc x,
    (x ∈ firstIdsAux l acc ↔ x ∈ acc ∨ (x ≠ 0 ∧ x ∈ l)) := by
  induction l with
  | nil =>
    intro acc x
    simp [firstIdsAux]
  | cons y xs ih =>
    intro acc x
    by_cases hcond : y ≠ 0 ∧ y ∉ acc
    · rw [firstIdsAux_cons y xs acc, if_pos hcond]
      rw [ih (y :: acc) x]
      simp only [List.mem_cons]
      constructor
      · rintro ((rfl | hacc) | ⟨hx0, hxs⟩)
        · exact Or.inr ⟨hcond.1, Or.inl rfl⟩
        · exact Or.inl hacc
        · exact Or.inr ⟨hx0, Or.inr hxs⟩
      · rintro (hacc | ⟨hx0, (rfl | hxs)⟩)
        · exact Or.inl (Or.inr hacc)
        · exact Or.inl (Or.inl rfl)
        · exact Or.inr ⟨hx0, hxs⟩
    · rw [firstIdsAux_cons y xs acc, if_neg hcond]
      rw [ih acc x]
      push_neg at hcond
      simp only [List.mem_cons]
      constructor
      · rintro (hacc | ⟨hx0, hxs⟩)
        · exact Or.inl hacc
        · exact Or.inr ⟨hx0, Or.inr hxs⟩
      · rintro (hacc | ⟨hx0, (rfl | hxs)⟩)
        · exact Or.inl hacc
        · rcases (em (x = 0)) with h0 | h0
          · exact absurd h0 hx0
          · exact Or.inl (hcond h0)
        · exact Or.inr ⟨hx0, hxs⟩

theorem mem_labIds (R C : ℕ) (m : ℕ → ℕ → Bool) (x : ℕ) :
    x ∈ labIds R C m ↔ x ≠ 0 ∧ x ∈ labList R C m := by
  unfold labIds
  rw [mem_firstIdsAux (labList R C m) [] x]
  simp

theorem listIdx_some_nthD (l : List ℕ) : ∀ a i, listIdx l a = some i → nthD l i 0 = a := by
  induction l with
  | nil => intro a i h; cases h
  | cons x xs ih =>
    intro a i h
    unfold listIdx at h
    by_cases hx : x = a
    · rw [if_pos hx] at h
      injection h with hi
      rw [← hi]
      exact hx
    · rw [if_neg hx] at h
      cases hj : listIdx xs a with
      | none => rw [hj] at h; cases h
      | some j =>
        rw [hj] at h
        injection h with hi
        rw [← hi, nthD_cons_succ]
        exact ih a j hj

theorem listIdx_mem (l : List ℕ) : ∀ a i, listIdx l a = some i → a ∈ l := by
  induction l with
  | nil => intro a i h; cases h
  | cons x xs ih =>
    intro a i h
    unfold listIdx at h
    by_cases hx : x = a
    · rw [hx]
      exact List.mem_cons_self a xs
    · rw [if_neg hx] at h
      cases hj : listIdx xs a with
      | none => rw [hj] at h; cases h
      | some j => exact List.mem_cons_of_mem x (ih a j hj)

theorem listIdx_isSome (l : List ℕ) : ∀ a, a ∈ l → ∃ i, listIdx l a = some i := by
  induction l with
  | nil => intro a h; cases h
  | cons x xs ih =>
    intro a h
    unfold listIdx
    by_cases hx : x = a
    · exact ⟨0, by rw [if_pos hx]⟩
    · rcases List.mem_cons.mp h with rfl | hmem
      · exact absurd rfl hx
      · obtain ⟨j, hj⟩ := ih a hmem
        exact ⟨j + 1, by rw [if_neg hx, hj]; rfl⟩

theorem labAt_zero_of_not_mask (R C : ℕ) (m : ℕ → ℕ → Bool) (r c : ℕ)
    (h : m r c = false) : labAt R C m r c = 0 := by
  unfold labAt
  rw [labRaw_zero R C m r c h]
  cases hidx : listIdx (labIds R C m) 0 with
  | none => rfl
  | some i =>
    have hmem : (0 : ℕ) ∈ labIds R C m := listIdx_mem _ 0 i hidx
    rw [mem_labIds] at hmem
    exact absurd rfl hmem.1

theorem labAt_pos_of_mask (R C : ℕ) (m : ℕ → ℕ → Bool)
    (hm : ∀ r c, m r c = true → r < R ∧ c < C) (r c : ℕ) (h : m r c = true) :
    1 ≤ labAt R C m r c := by
  have hraw := labRaw_pos R C m hm r c h
  have hb := hm r c h
  have hmemList : lget (labRaw R C m) r c ∈ labList R C m := by
    unfold labList
    have : ((r, c) : ℕ × ℕ) ∈ posList R C := mem_posList R C r c hb.1 hb.2
    exact List.mem_map_of_mem _ this
  have hmemIds : lget (labRaw R C m) r c ∈ labIds R C m :=
    (mem_labIds R C m _).mpr ⟨by omega, hmemList⟩
  obtain ⟨i, hi⟩ := listIdx_isSome (labIds R C m) _ hmemIds
  unfold labAt
  rw [hi]
  show 1 ≤ i + 1
  omega

theorem labAt_ne_zero_iff (R C : ℕ) (m : ℕ → ℕ → Bool)
    (hm : ∀ r c, m r c = true → r < R ∧ c < C) (r c : ℕ) :
    labAt R C m r c ≠ 0 ↔ m r c = true := by
  constructor
  · intro h
    cases hmc : m r c with
    | false => exact absurd (labAt_zero_of_not_mask R C m r c hmc) h
    | true => rfl
  · intro h
    have := labAt_pos_of_mask R C m hm r c h
    omega

/-- The final region-id grid, computed in one pass (same cell values as
`labAt`, see `lget_labG`). -/
def labG (R C : ℕ) (m : ℕ → ℕ → Bool) : LGrid :=
  let L := labRaw R C m
  let ids := firstIdsAux ((posList R C).map (fun p => lget L p.1 p.2)) []
  build R C fun r c =>
    match listIdx ids (lget L r c) with
    | some i => i + 1
    | none => 0

theorem labRaw_out (R C : ℕ) (m : ℕ → ℕ → Bool) (r c : ℕ) (h : ¬(r < R ∧ c < C)) :
    lget (labRaw R C m) r c = 0 := by
  obtain ⟨F, hF⟩ := labIter_is_build R C m (μlab R C (labL0 R C m))
  unfold labRaw
  rw [hF]
  exact lget_build_zero R C F r c h

theorem lget_labG (R C : ℕ) (m : ℕ → ℕ → Bool) (r c : ℕ) :
    lget (labG R C m) r c = labAt R C m r c := by
  by_cases hb : r < R ∧ c < C
  · show lget (build R C _) r c = labAt R C m r c
    rw [lget_build R C _ r c hb.1 hb.2]
    rfl
  · show lget (build R C _) r c = labAt R C m r c
    rw [lget_build_zero R C _ r c hb]
    unfold labAt
    rw [labRaw_out R C m r c hb]
    cases hidx : listIdx (labIds R C m) 0 with
    | none => rfl
    | some i =>
      have hmem : (0 : ℕ) ∈ labIds R C m := listIdx_mem _ 0 i hidx
      rw [mem_labIds] at hmem
      exact absurd rfl hmem.1

/-! ### Step 5: zonal maximum -/

/-- The values of `K` on the cells of region `i` of a label grid, in
raster-scan order. -/
def zoneValsOf (R C : ℕ) (Lab : LGrid) (K : Grid) (i : ℕ) : List ℤ :=
  (posList R C).foldr (fun p acc =>
    if lget Lab p.1 p.2 = i then
      match gget K p.1 p.2 with
      | some v => v :: acc
      | none => acc
    else acc) []

/-- The `snk` depths of the cells of region `i`, in raster-scan order. -/
def zoneVals (R C : ℕ) (S : Grid) (i : ℕ) : List ℤ :=
  let K := snk R C S
  zoneValsOf R C (labG R C (maskOf K)) K i

/-- Maximum of a list of values, `none` on the empty list. -/
def qmax? : List ℤ → Option ℤ
  | [] => none
  | x :: xs => some (xs.foldr max x)

/-- Step 5, `ZonalMaxTable`: region id ↦ maximum `snk` depth over the
region.  Modelled from the spec: the script computes it with the external
`ZonalStatistics(mskv, "ID", snk, MAXIMUM)` whose zones are the `MSK`
polygons, i.e. the labelled regions. -/
def MAXtab (R C : ℕ) (S : Grid) (i : ℕ) : Option ℤ := qmax? (zoneVals R C S i)

/-- The `MAX` raster: each zone cell carries its zone's maximum depth,
nodata outside the zones. -/
def MAXr (R C : ℕ) (S : Grid) : Grid :=
  let K := snk R C S
  let Lab := labG R C (maskOf K)
  build R C fun r c =>
    if lget Lab r c = 0 then none
    else qmax? (zoneValsOf R C Lab K (lget Lab r c))

/-! ### Step 6: the hole indicator raster -/

/-- Step 6: `HOL = Con(Raster("snk") >= float(d), Con(Raster("snk") ==
Raster("MAX"), 1))` — value `1` at cells whose positive depth is at least
`d` and equals the zonal maximum (an exact comparison), nodata elsewhere. -/
def HOL (R C : ℕ) (S : Grid) (d : ℤ) : Grid :=
  let K := snk R C S
  let M := MAXr R C S
  build R C fun r c =>
    match gget K r c with
    | none => none
    | some s =>
      if d ≤ s then
        match gget M r c with
        | none => none
        | some M => if s = M then some 1 else none
      else none

/-- The cells of the hole mask. -/
def holAt (R C : ℕ) (S : Grid) (d : ℤ) : ℕ → ℕ → Bool :=
  maskOf (HOL R C S d)

/-- The loop's termination test: `GetRasterProperties(hol, "ALLNODATA")`. -/
def holEmpty (R C : ℕ) (S : Grid) (d : ℤ) : Bool :=
  let H := HOL R C S d
  (posList R C).all fun p => (gget H p.1 p.2).isNone

/-! ### Step 10: deflation -/

/-- Step 10: `DEM2 = Con(Raster("MAX") >= float(d), Con(Raster("snk") !=
Raster("MAX"), Raster("MAX") - Raster("snk")))` — the inverted sub-crest
depth inside qualifying regions, nodata everywhere else. -/
def DEM2 (R C : ℕ) (S : Grid) (d : ℤ) : Grid :=
  let K := snk R C S
  let Mx := MAXr R C S
  build R C fun r c =>
    match gget Mx r c with
    | none => none
    | some M =>
      if d ≤ M then
        match gget K r c with
        | none => none
        | some s => if s = M then none else some (M - s)
      else none

/-! ### Steps 7-9: vectorization and output accumulation -/

/-- A sinkhole footprint polygon: its cell footprint (raster-scan order) and
its `GRIDCODE` attribute (the raster value of the traced region).  Modelled
from the spec: the script vectorizes with the external `RasterToPolygon`
(`NO_SIMPLIFY`), one polygon per 4-connected region, vertices following the
cell boundaries exactly, so a polygon is determined by its cell footprint. -/
structure Poly where
  cells : List (ℕ × ℕ)
  gridcode : ℤ
deriving DecidableEq, Repr

/-- The cells of region `i` of a mask, in raster-scan order. -/
def regionCells (R C : ℕ) (m : ℕ → ℕ → Bool) (i : ℕ) : List (ℕ × ℕ) :=
  let Lab := labG R C m
  (posList R C).filter (fun p => lget Lab p.1 p.2 == i)

/-- `HOLV1` (steps 7-8): the polygons of the current hole raster, one per
region in discovery order, each carrying its region's raster value as
`GRIDCODE` (every data cell of `HOL` holds value 1). -/
def HOLV1 (R C : ℕ) (S : Grid) (d : ℤ) : List Poly :=
  let H := HOL R C S d
  let m := maskOf H
  tabulate (fun j =>
    { cells := regionCells R C m (j + 1)
      gridcode :=
        match regionCells R C m (j + 1) with
        | [] => 0
        | p :: _ => (gget H p.1 p.2).getD 0 })
    (labIds R C m).length

/-! ### The iteration loop (lines 54-120 of the script) -/

/-- Outcome of a run: the accumulated polygons (step 9 appends each
iteration's `HOLV1` to the output feature class), the number of loop
iterations entered, the surface held in `DEM` when the loop ended, and
whether the loop ended through its only exit: the all-nodata test on `HOL`.
The `normal = false` outcome only arises from fuel exhaustion in the model;
the termination theorem shows the supplied fuel never runs out. -/
structure RunResult where
  polys : List Poly
  iters : ℕ
  finalDem : Grid
  normal : Bool
deriving DecidableEq, Repr

/-- The `while flag:` loop: fill, detect, stop on an empty hole mask, else
vectorize, append, deflate (`DEM = DEM2`) and repeat. -/
def loopRun (R C : ℕ) (d : ℤ) : ℕ → Grid → List Poly → RunResult
  | 0, dem, acc => ⟨acc, 0, dem, false⟩
  | fuel + 1, dem, acc =>
    if holEmpty R C dem d then ⟨acc, 1, dem, true⟩
    else
      let res := loopRun R C d fuel (DEM2 R C dem d) (acc ++ HOLV1 R C dem d)
      ⟨res.polys, res.iters + 1, res.finalDem, res.normal⟩

/-- Number of data cells of a surface (the termination measure). -/
def dataCount (R C : ℕ) (S : Grid) : ℕ :=
  cntP (fun p => (gget S p.1 p.2).isSome) (posList R C)

/-- The whole procedure on an in-memory surface: run the loop with
provably sufficient fuel, starting from an empty output collection. -/
def run (R C : ℕ) (S : Grid) (d : ℤ) : RunResult :=
  loopRun R C d (dataCount R C S + 1) S []

/-- `CreateFeatureclass_management` under `arcpy.env.overwriteOutput = True`
(lines 7 and 52): a fresh empty polygon layer replaces whatever is at the
output path. -/
def createLayer (overwrite : Bool) (prior : Option (List Poly)) : Option (List Poly) :=
  match prior with
  | none => some []
  | some old => if overwrite then some [] else some old

/-- The state of the output path across a run: the layer is created (before
the first iteration) and then only appended to (step 9, `Append NO_TEST`). -/
def runStore (R C : ℕ) (S : Grid) (d : ℤ) (prior : Option (List Poly)) :
    Option (List Poly) :=
  match createLayer true prior with
  | some start => some (start ++ (run R C S d).polys)
  | none => none

/-! ### Pointwise descriptions of the pipeline rasters -/

theorem gget_sink (R C : ℕ) (S : Grid) (r c : ℕ) (hr : r < R) (hc : c < C) :
    gget (sink R C S) r c =
      match gget (Fill R C S) r c, gget S r c with
      | some f, some v => some (f - v)
      | _, _ => none :=
  gget_build R C _ r c hr hc

theorem gget_sink_out (R C : ℕ) (S : Grid) (r c : ℕ) (h : ¬(r < R ∧ c < C)) :
    gget (sink R C S) r c = none :=
  gget_build_none R C _ r c h

theorem gget_snk (R C : ℕ) (S : Grid) (r c : ℕ) (hr : r < R) (hc : c < C) :
    gget (snk R C S) r c =
      match gget (sink R C S) r c with
      | some s => if 0 < s then some s else none
      | none => none :=
  gget_build R C _ r c hr hc

theorem gget_snk_out (R C : ℕ) (S : Grid) (r c : ℕ) (h : ¬(r < R ∧ c < C)) :
    gget (snk R C S) r c = none :=
  gget_build_none R C _ r c h

theorem snk_some_iff (R C : ℕ) (S : Grid) (r c : ℕ) (s : ℤ) :
    gget (snk R C S) r c = some s ↔ gget (sink R C S) r c = some s ∧ 0 < s := by
  by_cases hb : r < R ∧ c < C
  · rw [gget_snk R C S r c hb.1 hb.2]
    cases hk : gget (sink R C S) r c with
    | none => simp
    | some t =>
      by_cases ht : 0 < t
      · simp only [ht, if_true]
        constructor
        · intro h; injection h with h; exact ⟨by rw [h], by rw [← h]; exact ht⟩
        · intro ⟨h1, _⟩; injection h1 with h1; rw [h1]
      · simp only [ht, if_false]
        constructor
        · intro h; cases h
        · intro ⟨h1, h2⟩; injection h1 with h1; rw [← h1] at h2; exact absurd h2 ht
  · rw [gget_snk_out R C S r c hb, gget_sink_out R C S r c hb]
    simp

theorem snk_pos (R C : ℕ) (S : Grid) (r c : ℕ) (s : ℤ)
    (h : gget (snk R C S) r c = some s) : 0 < s := by
  by_cases hb : r < R ∧ c < C
  · rw [gget_snk R C S r c hb.1 hb.2] at h
    cases hk : gget (sink R C S) r c with
    | none => rw [hk] at h; cases h
    | some t =>
      rw [hk] at h
      have h' : (if 0 < t then some t else none) = some s := h
      by_cases ht : 0 < t
      · rw [if_pos ht] at h'; injection h' with h'; rw [← h']; exact ht
      · rw [if_neg ht] at h'; cases h'
  · rw [gget_snk_out R C S r c hb] at h; cases h

theorem mskAt_true_iff (R C : ℕ) (S : Grid) (r c : ℕ) :
    mskAt R C S r c = true ↔ gget (snk R C S) r c ≠ none := by
  show (gget (snk R C S) r c).isSome = true ↔ _
  cases gget (snk R C S) r c <;> simp

theorem mskAt_bounds (R C : ℕ) (S : Grid) (r c : ℕ) (h : mskAt R C S r c = true) :
    r < R ∧ c < C := by
  rw [mskAt_true_iff] at h
  by_contra hb
  exact h (gget_snk_out R C S r c hb)

theorem gget_MAXr (R C : ℕ) (S : Grid) (r c : ℕ) (hr : r < R) (hc : c < C) :
    gget (MAXr R C S) r c =
      if labAt R C (mskAt R C S) r c = 0 then none
      else MAXtab R C S (labAt R C (mskAt R C S) r c) := by
  show gget (build R C _) r c = _
  rw [gget_build R C _ r c hr hc]
  show (if lget (labG R C (maskOf (snk R C S))) r c = 0 then none
      else qmax? (zoneValsOf R C (labG R C (maskOf (snk R C S))) (snk R C S)
        (lget (labG R C (maskOf (snk R C S))) r c))) = _
  rw [lget_labG R C (maskOf (snk R C S)) r c]
  rfl

theorem gget_MAXr_out (R C : ℕ) (S : Grid) (r c : ℕ) (h : ¬(r < R ∧ c < C)) :
    gget (MAXr R C S) r c = none :=
  gget_build_none R C _ r c h

theorem gget_HOL (R C : ℕ) (S : Grid) (d : ℤ) (r c : ℕ) (hr : r < R) (hc : c < C) :
    gget (HOL R C S d) r c =
      match gget (snk R C S) r c with
      | none => none
      | some s =>
        if d ≤ s then
          match gget (MAXr R C S) r c with
          | none => none
          | some M => if s = M then some 1 else none
        else none :=
  gget_build R C _ r c hr hc

theorem gget_HOL_out (R C : ℕ) (S : Grid) (d : ℤ) (r c : ℕ) (h : ¬(r < R ∧ c < C)) :
    gget (HOL R C S d) r c = none :=
  gget_build_none R C _ r c h

theorem gget_DEM2 (R C : ℕ) (S : Grid) (d : ℤ) (r c : ℕ) (hr : r < R) (hc : c < C) :
    gget (DEM2 R C S d) r c =
      match gget (MAXr R C S) r c with
      | none => none
      | some M =>
        if d ≤ M then
          match gget (snk R C S) r c with
          | none => none
          | some s => if s = M then none else some (M - s)
        else none :=
  gget_build R C _ r c hr hc

theorem gget_DEM2_out (R C : ℕ) (S : Grid) (d : ℤ) (r c : ℕ) (h : ¬(r < R ∧ c < C)) :
    gget (DEM2 R C S d) r c = none :=
  gget_build_none R C _ r c h

/-! ### The zonal maximum table -/

theorem mem_zoneValsOf (R C : ℕ) (Lab : LGrid) (K : Grid) (i : ℕ) (v : ℤ) :
    v ∈ zoneValsOf R C Lab K i ↔
      ∃ p ∈ posList R C, lget Lab p.1 p.2 = i ∧ gget K p.1 p.2 = some v := by
  unfold zoneValsOf
  generalize posList R C = l
  induction l with
  | nil => simp
  | cons q l ih =>
    simp only [List.foldr_cons, List.mem_cons]
    by_cases hq : lget Lab q.1 q.2 = i
    · rw [if_pos hq]
      cases hk : gget K q.1 q.2 with
      | none =>
        rw [ih]
        constructor
        · rintro ⟨p, hp, h1, h2⟩; exact ⟨p, Or.inr hp, h1, h2⟩
        · rintro ⟨p, (rfl | hp), h1, h2⟩
          · rw [hk] at h2; cases h2
          · exact ⟨p, hp, h1, h2⟩
      | some w =>
        simp only [List.mem_cons]
        constructor
        · rintro (rfl | hmem)
          · exact ⟨q, Or.inl rfl, hq, hk⟩
          · obtain ⟨p, hp, h1, h2⟩ := ih.mp hmem
            exact ⟨p, Or.inr hp, h1, h2⟩
        · rintro ⟨p, (rfl | hp), h1, h2⟩
          · rw [hk] at h2; injection h2 with h2; left; rw [h2]
          · right; exact ih.mpr ⟨p, hp, h1, h2⟩
    · rw [if_neg hq, ih]
      constructor
      · rintro ⟨p, hp, h1, h2⟩; exact ⟨p, Or.inr hp, h1, h2⟩
      · rintro ⟨p, (rfl | hp), h1, h2⟩
        · exact absurd h1 hq
        · exact ⟨p, hp, h1, h2⟩

theorem mem_zoneVals (R C : ℕ) (S : Grid) (i : ℕ) (v : ℤ) :
    v ∈ zoneVals R C S i ↔
      ∃ p ∈ posList R C, labAt R C (mskAt R C S) p.1 p.2 = i ∧
        gget (snk R C S) p.1 p.2 = some v := by
  show v ∈ zoneValsOf R C (labG R C (mskAt R C S)) (snk R C S) i ↔ _
  rw [mem_zoneValsOf]
  constructor
  · rintro ⟨p, hp, h1, h2⟩
    exact ⟨p, hp, by rw [← lget_labG R C (mskAt R C S) p.1 p.2]; exact h1, h2⟩
  · rintro ⟨p, hp, h1, h2⟩
    exact ⟨p, hp, by rw [lget_labG R C (mskAt R C S) p.1 p.2]; exact h1, h2⟩

theorem qmax?_mem (l : List ℤ) (x : ℤ) (h : qmax? l = some x) : x ∈ l := by
  cases l with
  | nil => cases h
  | cons a l =>
    unfold qmax? at h
    injection h with h
    rw [← h]
    clear h
    induction l generalizing a with
    | nil => exact List.mem_cons_self a []
    | cons b l ih =>
      show max b (l.foldr max a) ∈ a :: b :: l
      rcases max_choice b (l.foldr max a) with hm | hm
      · rw [hm]; exact List.mem_cons_of_mem a (List.mem_cons_self b l)
      · rw [hm]
        have := ih a
        rcases List.mem_cons.mp this with h1 | h1
        · rw [h1]; exact List.mem_cons_self a _
        · exact List.mem_cons_of_mem a (List.mem_cons_of_mem b h1)

theorem qmax?_ge (l : List ℤ) (x v : ℤ) (h : qmax? l = some x) (hv : v ∈ l) :
    v ≤ x := by
  cases l with
  | nil => cases hv
  | cons a l =>
    unfold qmax? at h
    injection h with h
    rw [← h]
    clear h
    induction l generalizing a with
    | nil =>
      rcases List.mem_cons.mp hv with rfl | h1
      · exact le_refl v
      · cases h1
    | cons b l ih =>
      show v ≤ max b (l.foldr max a)
      rcases List.mem_cons.mp hv with rfl | h1
      · exact le_trans (ih v (List.mem_cons_self v l)) (le_max_right b _)
      · rcases List.mem_cons.mp h1 with rfl | h2
        · exact le_max_left v _
        · exact le_trans (ih a (List.mem_cons_of_mem a h2)) (le_max_right b _)

theorem qmax?_isSome (l : List ℤ) (h : l ≠ []) : ∃ x, qmax? l = some x := by
  cases l with
  | nil => exact absurd rfl h
  | cons a l => exact ⟨l.foldr max a, rfl⟩

theorem snk_some_bounds (R C : ℕ) (S : Grid) (r c : ℕ)
    (h : gget (snk R C S) r c ≠ none) : r < R ∧ c < C := by
  by_contra hb
  exact h (gget_snk_out R C S r c hb)

theorem HOL_some_bounds (R C : ℕ) (S : Grid) (d : ℤ) (r c : ℕ)
    (h : gget (HOL R C S d) r c ≠ none) : r < R ∧ c < C := by
  by_contra hb
  exact h (gget_HOL_out R C S d r c hb)

theorem DEM2_some_bounds (R C : ℕ) (S : Grid) (d : ℤ) (r c : ℕ)
    (h : gget (DEM2 R C S d) r c ≠ none) : r < R ∧ c < C := by
  by_contra hb
  exact h (gget_DEM2_out R C S d r c hb)

theorem labAt_msk_ne_zero_iff (R C : ℕ) (S : Grid) (r c : ℕ) :
    labAt R C (mskAt R C S) r c ≠ 0 ↔ gget (snk R C S) r c ≠ none := by
  rw [labAt_ne_zero_iff R C (mskAt R C S) (fun r c h => mskAt_bounds R C S r c h) r c,
    mskAt_true_iff]

/-- C1: the hole mask marks a cell exactly when the cell lies in a nonzero
region, its depth equals (exactly, no epsilon) its region's zonal maximum
depth, and that depth is at least `d`.  The depth surface is the `sink`
raster (`filled − DEM`); a consequence of the right-to-left direction is
that every cell of a region whose zonal maximum is below `d` is unmarked,
since its depth can then never be a value `≥ d` of the table.  The
statement quantifies over every surface `S`, hence over the surface of
every iteration of the loop. -/
theorem C1_hole_mask_characterization (R C : ℕ) (S : Grid) (d : ℤ) (r c : ℕ) :
    gget (HOL R C S d) r c ≠ none ↔
      labAt R C (mskAt R C S) r c ≠ 0 ∧
        ∃ v, gget (sink R C S) r c = some v ∧
          MAXtab R C S (labAt R C (mskAt R C S) r c) = some v ∧ d ≤ v := by
  constructor
  · intro h
    have hb := HOL_some_bounds R C S d r c h
    rw [gget_HOL R C S d r c hb.1 hb.2] at h
    split at h
    · exact absurd rfl h
    · next s hs =>
      have hlab : labAt R C (mskAt R C S) r c ≠ 0 :=
        (labAt_msk_ne_zero_iff R C S r c).mpr (by rw [hs]; exact Option.some_ne_none s)
      split at h
      · next hd =>
        split at h
        · exact absurd rfl h
        · next M hM =>
          split at h
          · next hsM =>
            refine ⟨hlab, s, ?_, ?_, hd⟩
            · exact ((snk_some_iff R C S r c s).mp hs).1
            · rw [gget_MAXr R C S r c hb.1 hb.2, if_neg hlab] at hM
              rw [hM, hsM]
          · exact absurd rfl h
      · exact absurd rfl h
  · rintro ⟨hlab, v, hsink, htab, hd⟩
    have hsnk : gget (snk R C S) r c ≠ none := (labAt_msk_ne_zero_iff R C S r c).mp hlab
    have hb := snk_some_bounds R C S r c hsnk
    cases hs : gget (snk R C S) r c with
    | none => exact absurd hs hsnk
    | some s =>
      have hss := (snk_some_iff R C S r c s).mp hs
      have hvs : s = v := by
        rw [hss.1] at hsink
        injection hsink
      have hM : gget (MAXr R C S) r c = some v := by
        rw [gget_MAXr R C S r c hb.1 hb.2, if_neg hlab]
        exact htab
      rw [gget_HOL R C S d r c hb.1 hb.2, hs, hM, hvs]
      simp [hd]

/-- Demonstration grid: a 3 × 3 surface with a flat rim at elevation 1 and
a one-cell pit of depth 1 at the centre. -/
def pitDemo3 : Grid :=
  [[some 1, some 1, some 1],
   [some 1, some 0, some 1],
   [some 1, some 1, some 1]]

/-- C2, counterexample: on `pitDemo3` with `d = 1` the hole mask is
nonempty, so an extraction iteration runs; cell `(0, 0)` is touched by no
region at all (its region id is 0) and holds value 1 in the prior surface,
yet the deflated surface `DEM2` holds nodata there, not the prior value:
`Con` with no else-branch erases every cell outside the qualifying
sub-crest area. -/
theorem C2_counterexample :
    holEmpty 3 3 pitDemo3 1 = false ∧
    labAt 3 3 (mskAt 3 3 pitDemo3) 0 0 = 0 ∧
    gget pitDemo3 0 0 = some 1 ∧
    gget (DEM2 3 3 pitDemo3 1) 0 0 = none := by decide

/-- Pointwise characterisation of the deflated surface. -/
theorem DEM2_some_iff (R C : ℕ) (S : Grid) (d : ℤ) (r c : ℕ) (v : ℤ) :
    gget (DEM2 R C S d) r c = some v ↔
      ∃ M s, labAt R C (mskAt R C S) r c ≠ 0 ∧
        MAXtab R C S (labAt R C (mskAt R C S) r c) = some M ∧ d ≤ M ∧
        gget (snk R C S) r c = some s ∧ s ≠ M ∧ v = M - s := by
  constructor
  · intro h
    have hb := DEM2_some_bounds R C S d r c (by rw [h]; exact Option.some_ne_none v)
    rw [gget_DEM2 R C S d r c hb.1 hb.2] at h
    split at h
    · cases h
    · next M hM =>
      split at h
      · next hd =>
        split at h
        · cases h
        · next s hs =>
          split at h
          · cases h
          · next hsM =>
            injection h with h
            have hlab : labAt R C (mskAt R C S) r c ≠ 0 :=
              (labAt_msk_ne_zero_iff R C S r c).mpr (by
                rw [hs]; exact Option.some_ne_none s)
            refine ⟨M, s, hlab, ?_, hd, hs, hsM, h.symm⟩
            rw [gget_MAXr R C S r c hb.1 hb.2, if_neg hlab] at hM
            exact hM
      · cases h
  · rintro ⟨M, s, hlab, htab, hd, hs, hsM, hv⟩
    have hb := snk_some_bounds R C S r c (by rw [hs]; exact Option.some_ne_none s)
    have hM : gget (MAXr R C S) r c = some M := by
      rw [gget_MAXr R C S r c hb.1 hb.2, if_neg hlab]
      exact htab
    rw [gget_DEM2 R C S d r c hb.1 hb.2, hM, hs, hv]
    simp [hd, hsM]

/-- C2, amended: in the deflation step, a cell of the next surface holds a
value exactly when the cell lies in a region whose zonal maximum `M` is at
least `d` and its own depth `s` differs from `M`, and then the value is
`M - s`; every other cell — in particular every cell untouched by a
qualifying region — is nodata in the next surface, not its prior value. -/
theorem C2_deflation_characterization (R C : ℕ) (S : Grid) (d : ℤ) (r c : ℕ) (v : ℤ) :
    gget (DEM2 R C S d) r c = some v ↔
      ∃ M s, labAt R C (mskAt R C S) r c ≠ 0 ∧
        MAXtab R C S (labAt R C (mskAt R C S) r c) = some M ∧ d ≤ M ∧
        gget (snk R C S) r c = some s ∧ s ≠ M ∧ v = M - s :=
  DEM2_some_iff R C S d r c v

theorem sink_some_S (R C : ℕ) (S : Grid) (r c : ℕ) (s : ℤ)
    (h : gget (sink R C S) r c = some s) : gget S r c ≠ none := by
  have hb : r < R ∧ c < C := by
    by_contra hb
    rw [gget_sink_out R C S r c hb] at h
    cases h
  rw [gget_sink R C S r c hb.1 hb.2] at h
  split at h
  · next f v hf hv => rw [hv]; exact Option.some_ne_none v
  · cases h

/-- C6: the filled surface dominates the input everywhere, the grid edge is
unchanged, a data cell keeps its own elevation exactly when it has a
non-ascending escape walk to the boundary at its own level (it belongs to
no depression), and consequently the per-iteration depth surface
`sink = filled − DEM` is everywhere non-negative.  The fill itself is
modelled from §4.1 of the specification (the script calls the external
`Fill` tool). -/
theorem C6_fill_contract (R C : ℕ) (S : Grid) (hwf : wf R C S) :
    (∀ r c v, gget S r c = some v → ∃ w, gget (Fill R C S) r c = some w ∧ v ≤ w) ∧
    (∀ r c, r = 0 ∨ c = 0 ∨ r + 1 = R ∨ c + 1 = C →
      gget (Fill R C S) r c = gget S r c) ∧
    (∀ r c v, gget S r c = some v →
      (gget (Fill R C S) r c = some v ↔ Escape R C S v r c)) ∧
    (∀ r c s, gget (sink R C S) r c = some s → 0 ≤ s) := by
  refine ⟨?_, ?_, ?_, ?_⟩
  · intro r c v hv
    obtain ⟨w, hw, hvw, _⟩ := Fill_total R C S hwf r c v hv
    exact ⟨w, hw, hvw⟩
  · intro r c h
    exact Fill_edge R C S hwf r c h
  · intro r c v hv
    constructor
    · intro h
      exact (Wfix_le_iff R C S hwf v r c).mp ⟨v, h, le_refl v⟩
    · intro h
      obtain ⟨w, hw, hwv⟩ := W_of_escape R C S hwf v r c h
      have hvw := Fill_ge_S R C S r c v w hv hw
      show gget (Wfix R C S) r c = some v
      rw [hw]
      exact congrArg some (le_antisymm hwv hvw)
  · intro r c s hs
    have hb : r < R ∧ c < C := by
      by_contra hb
      rw [gget_sink_out R C S r c hb] at hs
      cases hs
    rw [gget_sink R C S r c hb.1 hb.2] at hs
    split at hs
    · next f v hf hv =>
      injection hs with hs
      have := Fill_ge_S R C S r c v f hv hf
      omega
    · cases hs

/-- C6 witness: the contract instantiated on the 3 × 3 pit demo grid. -/
theorem C6_fill_contract_witness :
    wf 3 3 pitDemo3 ∧
    ((∀ r c v, gget pitDemo3 r c = some v →
        ∃ w, gget (Fill 3 3 pitDemo3) r c = some w ∧ v ≤ w) ∧
      (∀ r c, r = 0 ∨ c = 0 ∨ r + 1 = 3 ∨ c + 1 = 3 →
        gget (Fill 3 3 pitDemo3) r c = gget pitDemo3 r c) ∧
      (∀ r c v, gget pitDemo3 r c = some v →
        (gget (Fill 3 3 pitDemo3) r c = some v ↔ Escape 3 3 pitDemo3 v r c)) ∧
      (∀ r c s, gget (sink 3 3 pitDemo3) r c = some s → 0 ≤ s)) :=
  ⟨by decide, C6_fill_contract 3 3 pitDemo3 (by decide)⟩

/-- C7: the depression fill is idempotent.  Modelled from §4.1 of the
specification (the script delegates to the external `Fill` tool). -/
theorem C7_fill_idempotent (R C : ℕ) (S : Grid) (hwf : wf R C S) :
    Fill R C (Fill R C S) = Fill R C S :=
  Fill_idem R C S hwf

/-- C7 witness: idempotence instantiated on the 3 × 3 pit demo grid. -/
theorem C7_fill_idempotent_witness :
    wf 3 3 pitDemo3 ∧ Fill 3 3 (Fill 3 3 pitDemo3) = Fill 3 3 pitDemo3 :=
  ⟨by decide, C7_fill_idempotent 3 3 pitDemo3 (by decide)⟩

/-! ### Loop lemmas: termination and output accumulation -/

theorem holEmpty_iff (R C : ℕ) (S : Grid) (d : ℤ) :
    holEmpty R C S d = true ↔ ∀ r c, gget (HOL R C S d) r c = none := by
  show ((posList R C).all fun p => (gget (HOL R C S d) p.1 p.2).isNone) = true ↔ _
  rw [List.all_eq_true]
  constructor
  · intro h r c
    by_cases hb : r < R ∧ c < C
    · have := h (r, c) (mem_posList R C r c hb.1 hb.2)
      rwa [Option.isNone_iff_eq_none] at this
    · exact gget_HOL_out R C S d r c hb
  · intro h p _
    rw [Option.isNone_iff_eq_none]
    exact h p.1 p.2

theorem holEmpty_false_iff (R C : ℕ) (S : Grid) (d : ℤ) :
    holEmpty R C S d = false ↔ ∃ r c, gget (HOL R C S d) r c ≠ none := by
  constructor
  · intro h
    by_contra hall
    push_neg at hall
    have : holEmpty R C S d = true := (holEmpty_iff R C S d).mpr hall
    rw [h] at this
    cases this
  · intro ⟨r, c, h⟩
    cases he : holEmpty R C S d with
    | false => rfl
    | true => exact absurd ((holEmpty_iff R C S d).mp he r c) h

theorem HOL_some_inv (R C : ℕ) (S : Grid) (d : ℤ) (r c : ℕ)
    (h : gget (HOL R C S d) r c ≠ none) :
    ∃ s, gget (snk R C S) r c = some s ∧ gget (MAXr R C S) r c = some s ∧ d ≤ s := by
  have hb := HOL_some_bounds R C S d r c h
  rw [gget_HOL R C S d r c hb.1 hb.2] at h
  split at h
  · exact absurd rfl h
  · next s hs =>
    split at h
    · next hd =>
      split at h
      · exact absurd rfl h
      · next M hM =>
        split at h
        · next hsM => exact ⟨s, hs, by rw [hM, hsM], hd⟩
        · exact absurd rfl h
    · exact absurd rfl h

theorem HOL_some_snk (R C : ℕ) (S : Grid) (d : ℤ) (r c : ℕ)
    (h : gget (HOL R C S d) r c ≠ none) : gget (snk R C S) r c ≠ none := by
  obtain ⟨s, hs, _, _⟩ := HOL_some_inv R C S d r c h
  rw [hs]
  exact Option.some_ne_none s

theorem snk_some_S (R C : ℕ) (S : Grid) (r c : ℕ)
    (h : gget (snk R C S) r c ≠ none) : gget S r c ≠ none := by
  cases hs : gget (snk R C S) r c with
  | none => exact absurd hs h
  | some s =>
    exact sink_some_S R C S r c s ((snk_some_iff R C S r c s).mp hs).1

theorem DEM2_data_subset (R C : ℕ) (S : Grid) (d : ℤ) (r c : ℕ)
    (h : gget (DEM2 R C S d) r c ≠ none) : gget S r c ≠ none := by
  have hb := DEM2_some_bounds R C S d r c h
  rw [gget_DEM2 R C S d r c hb.1 hb.2] at h
  apply snk_some_S R C S r c
  split at h
  · exact absurd rfl h
  · next M hM =>
    split at h
    · next hd =>
      split at h
      · exact absurd rfl h
      · next s hs =>
        rw [hs]
        exact Option.some_ne_none s
    · exact absurd rfl h

theorem DEM2_none_at_crest (R C : ℕ) (S : Grid) (d : ℤ) (r c : ℕ)
    (h : gget (HOL R C S d) r c ≠ none) : gget (DEM2 R C S d) r c = none := by
  have hb := HOL_some_bounds R C S d r c h
  obtain ⟨s, hs, hM, hd⟩ := HOL_some_inv R C S d r c h
  rw [gget_DEM2 R C S d r c hb.1 hb.2, hM, hs]
  simp [hd]

theorem dataCount_DEM2_lt (R C : ℕ) (S : Grid) (d : ℤ)
    (h : holEmpty R C S d = false) :
    dataCount R C (DEM2 R C S d) < dataCount R C S := by
  obtain ⟨r, c, hrc⟩ := (holEmpty_false_iff R C S d).mp h
  have hb := HOL_some_bounds R C S d r c hrc
  unfold dataCount
  apply cntP_lt_cntP _ _ (posList R C) ?mono (r, c) (mem_posList R C r c hb.1 hb.2)
    ?hq ?hp
  case mono =>
    intro p _ hp
    rw [Option.isSome_iff_ne_none] at hp ⊢
    exact DEM2_data_subset R C S d p.1 p.2 hp
  case hq =>
    rw [Option.isSome_iff_ne_none]
    exact snk_some_S R C S r c (HOL_some_snk R C S d r c hrc)
  case hp =>
    rw [Bool.eq_false_iff, Ne, Option.isSome_iff_ne_none]
    intro hne
    exact hne (DEM2_none_at_crest R C S d r c hrc)

theorem loopRun_succ (R C : ℕ) (d : ℤ) (fuel : ℕ) (dem : Grid) (acc : List Poly) :
    loopRun R C d (fuel + 1) dem acc =
      if holEmpty R C dem d then ⟨acc, 1, dem, true⟩
      else
        let res := loopRun R C d fuel (DEM2 R C dem d) (acc ++ HOLV1 R C dem d)
        ⟨res.polys, res.iters + 1, res.finalDem, res.normal⟩ := rfl

theorem loopRun_normal (R C : ℕ) (d : ℤ) (fuel : ℕ) :
    ∀ dem acc, dataCount R C dem < fuel →
      (loopRun R C d fuel dem acc).normal = true ∧
      holEmpty R C ((loopRun R C d fuel dem acc).finalDem) d = true := by
  induction fuel with
  | zero => intro dem acc h; omega
  | succ fuel ih =>
    intro dem acc h
    rw [loopRun_succ R C d fuel dem acc]
    cases he : holEmpty R C dem d with
    | true => simp [he]
    | false =>
      rw [if_neg Bool.false_ne_true]
      have hlt : dataCount R C (DEM2 R C dem d) < fuel := by
        have := dataCount_DEM2_lt R C dem d he
        omega
      have := ih (DEM2 R C dem d) (acc ++ HOLV1 R C dem d) hlt
      exact ⟨this.1, this.2⟩

theorem loopRun_fuel_irrel (R C : ℕ) (d : ℤ) (f1 : ℕ) :
    ∀ f2 dem acc, dataCount R C dem < f1 → dataCount R C dem < f2 →
      loopRun R C d f1 dem acc = loopRun R C d f2 dem acc := by
  induction f1 with
  | zero => intro f2 dem acc h1 _; omega
  | succ f1 ih =>
    intro f2 dem acc h1 h2
    cases f2 with
    | zero => omega
    | succ f2 =>
      rw [loopRun_succ R C d f1 dem acc, loopRun_succ R C d f2 dem acc]
      cases he : holEmpty R C dem d with
      | true => simp [he]
      | false =>
        rw [if_neg Bool.false_ne_true, if_neg Bool.false_ne_true]
        have hlt := dataCount_DEM2_lt R C dem d he
        rw [ih f2 (DEM2 R C dem d) (acc ++ HOLV1 R C dem d) (by omega) (by omega)]

theorem loopRun_polys_prefix (R C : ℕ) (d : ℤ) (fuel : ℕ) :
    ∀ dem acc, ∃ t, (loopRun R C d fuel dem acc).polys = acc ++ t := by
  induction fuel with
  | zero => intro dem acc; exact ⟨[], (List.append_nil acc).symm⟩
  | succ fuel ih =>
    intro dem acc
    rw [loopRun_succ R C d fuel dem acc]
    cases he : holEmpty R C dem d with
    | true =>
      simp only [he, if_true]
      exact ⟨[], (List.append_nil acc).symm⟩
    | false =>
      rw [if_neg Bool.false_ne_true]
      obtain ⟨t, ht⟩ := ih (DEM2 R C dem d) (acc ++ HOLV1 R C dem d)
      exact ⟨HOLV1 R C dem d ++ t, by rw [ht, List.append_assoc]⟩

theorem holAt_bounds (R C : ℕ) (S : Grid) (d : ℤ) (r c : ℕ)
    (h : holAt R C S d r c = true) : r < R ∧ c < C := by
  apply HOL_some_bounds R C S d r c
  have : (gget (HOL R C S d) r c).isSome = true := h
  rwa [Option.isSome_iff_ne_none] at this

theorem HOLV1_length (R C : ℕ) (S : Grid) (d : ℤ) :
    (HOLV1 R C S d).length = (labIds R C (holAt R C S d)).length := by
  show (tabulate _ _).length = _
  exact length_tabFrom _ 0 _

theorem HOLV1_ne_nil (R C : ℕ) (S : Grid) (d : ℤ)
    (h : holEmpty R C S d = false) : HOLV1 R C S d ≠ [] := by
  obtain ⟨r, c, hrc⟩ := (holEmpty_false_iff R C S d).mp h
  have hmask : holAt R C S d r c = true := by
    show (gget (HOL R C S d) r c).isSome = true
    rwa [Option.isSome_iff_ne_none]
  have hpos := labAt_pos_of_mask R C (holAt R C S d)
    (fun r c hm => holAt_bounds R C S d r c hm) r c hmask
  have hids : labIds R C (holAt R C S d) ≠ [] := by
    intro hnil
    unfold labAt at hpos
    rw [hnil] at hpos
    cases hidx : listIdx [] (lget (labRaw R C (holAt R C S d)) r c) with
    | none => rw [hidx] at hpos; simp at hpos
    | some i => cases hidx
  intro hnil
  have := HOLV1_length R C S d
  rw [hnil] at this
  have hlen : (labIds R C (holAt R C S d)).length = 0 := this.symm
  exact hids (List.eq_nil_of_length_eq_zero hlen)

/-- C3: the iteration loop always terminates; the all-nodata test on `HOL`
is its only exit, and at exit the hole mask of the final surface is empty.
The last conjunct shows there is no iteration cap: any fuel beyond the
data-cell count gives the identical result, because the loop has already
stopped through the empty-mask test (each deflation strictly removes at
least the crest cell from the data extent, so the loop runs at most
`dataCount` iterations). -/
theorem C3_termination (R C : ℕ) (S : Grid) (d : ℤ) (fuel : ℕ)
    (h : dataCount R C S + 1 ≤ fuel) :
    (run R C S d).normal = true ∧
    holEmpty R C ((run R C S d).finalDem) d = true ∧
    loopRun R C d fuel S [] = run R C S d := by
  have h1 := loopRun_normal R C d (dataCount R C S + 1) S [] (by omega)
  exact ⟨h1.1, h1.2,
    loopRun_fuel_irrel R C d fuel (dataCount R C S + 1) S [] (by omega) (by omega)⟩

/-- C3 witness: termination on the 3 × 3 pit demo grid with ample fuel. -/
theorem C3_termination_witness :
    dataCount 3 3 pitDemo3 + 1 ≤ 12 ∧
    ((run 3 3 pitDemo3 1).normal = true ∧
      holEmpty 3 3 ((run 3 3 pitDemo3 1).finalDem) 1 = true ∧
      loopRun 3 3 1 12 pitDemo3 [] = run 3 3 pitDemo3 1) :=
  ⟨by decide, C3_termination 3 3 pitDemo3 1 12 (by decide)⟩

/-- C4, counterexample: with the non-positive threshold `d = −1` the run
does not fail before the first iteration and output is written: the script
contains no threshold validation, so the loop runs normally, extracts the
pit crest, and the output store ends up holding that polygon (any prior
feature class having been overwritten). -/
theorem C4_counterexample :
    ((-1 : ℤ) ≤ 0) ∧
    (run 3 3 pitDemo3 (-1)).normal = true ∧
    (run 3 3 pitDemo3 (-1)).polys = [⟨[(1, 1)], 1⟩] ∧
    runStore 3 3 pitDemo3 (-1) (some [⟨[(0, 0)], 5⟩]) = some [⟨[(1, 1)], 1⟩] := by
  refine ⟨by decide, ?_, ?_, ?_⟩ <;> decide

/-- C4, amended: the script never validates the threshold.  For `d ≤ 0` the
run proceeds exactly as for a positive threshold and terminates normally;
its output is empty precisely when the first hole mask is empty, which for
a non-positive threshold happens precisely when the first depth raster
`snk` holds no data at all (every positive-depth region then qualifies, its
maximum being positive hence `≥ d`). -/
theorem C4_no_threshold_validation (R C : ℕ) (S : Grid) (d : ℤ) (hd : d ≤ 0) :
    (run R C S d).normal = true ∧
    ((run R C S d).polys = [] ↔ holEmpty R C S d = true) ∧
    (holEmpty R C S d = true ↔ ∀ p ∈ posList R C, gget (snk R C S) p.1 p.2 = none) := by
  refine ⟨(loopRun_normal R C d (dataCount R C S + 1) S [] (by omega)).1, ?_, ?_⟩
  · constructor
    · intro hpoly
      cases he : holEmpty R C S d with
      | true => rfl
      | false =>
        exfalso
        unfold run at hpoly
        rw [show dataCount R C S + 1 = dataCount R C S + 1 from rfl,
          loopRun_succ R C d (dataCount R C S) S []] at hpoly
        rw [he] at hpoly
        rw [if_neg Bool.false_ne_true] at hpoly
        obtain ⟨t, ht⟩ := loopRun_polys_prefix R C d (dataCount R C S)
          (DEM2 R C S d) ([] ++ HOLV1 R C S d)
        simp only [ht] at hpoly
        have := HOLV1_ne_nil R C S d he
        simp only [List.nil_append] at hpoly
        rcases List.append_eq_nil.mp hpoly with ⟨h1, _⟩
        exact this h1
    · intro he
      unfold run
      cases hn : dataCount R C S + 1 with
      | zero => omega
      | succ n =>
        rw [loopRun_succ R C d n S [], if_pos (by rw [he])]
  · constructor
    · intro he
      by_contra hall
      push_neg at hall
      obtain ⟨p, hp, hne⟩ := hall
      cases hs : gget (snk R C S) p.1 p.2 with
      | none => exact hne hs
      | some s =>
        have hlab : labAt R C (mskAt R C S) p.1 p.2 ≠ 0 :=
          (labAt_msk_ne_zero_iff R C S p.1 p.2).mpr (by
            rw [hs]; exact Option.some_ne_none s)
        have hmem : s ∈ zoneVals R C S (labAt R C (mskAt R C S) p.1 p.2) :=
          (mem_zoneVals R C S _ s).mpr ⟨p, hp, rfl, hs⟩
        obtain ⟨M, hM⟩ := qmax?_isSome (zoneVals R C S (labAt R C (mskAt R C S) p.1 p.2))
          (List.ne_nil_of_mem hmem)
        obtain ⟨q, hq, hqlab, hqsnk⟩ := (mem_zoneVals R C S _ M).mp (qmax?_mem _ M hM)
        have hqb := posList_bounds R C q hq
        have hMpos : 0 < M := snk_pos R C S q.1 q.2 M hqsnk
        have hqlab0 : labAt R C (mskAt R C S) q.1 q.2 ≠ 0 := by rw [hqlab]; exact hlab
        have hMr : gget (MAXr R C S) q.1 q.2 = some M := by
          rw [gget_MAXr R C S q.1 q.2 hqb.1 hqb.2, if_neg hqlab0, hqlab]
          exact hM
        have hHOL : gget (HOL R C S d) q.1 q.2 ≠ none := by
          rw [gget_HOL R C S d q.1 q.2 hqb.1 hqb.2, hqsnk, hMr]
          simp [le_trans hd (le_of_lt hMpos)]
        exact hHOL ((holEmpty_iff R C S d).mp he q.1 q.2)
    · intro hall
      apply (holEmpty_iff R C S d).mpr
      intro r c
      by_cases hb : r < R ∧ c < C
      · rw [gget_HOL R C S d r c hb.1 hb.2,
          hall (r, c) (mem_posList R C r c hb.1 hb.2)]
      · exact gget_HOL_out R C S d r c hb

/-- C4 witness: the amended statement instantiated at threshold `−1` on the
3 × 3 pit demo grid. -/
theorem C4_no_threshold_validation_witness :
    ((-1 : ℤ) ≤ 0) ∧
    ((run 3 3 pitDemo3 (-1)).normal = true ∧
      ((run 3 3 pitDemo3 (-1)).polys = [] ↔ holEmpty 3 3 pitDemo3 (-1) = true) ∧
      (holEmpty 3 3 pitDemo3 (-1) = true ↔
        ∀ p ∈ posList 3 3, gget (snk 3 3 pitDemo3) p.1 p.2 = none)) :=
  ⟨by decide, C4_no_threshold_validation 3 3 pitDemo3 (-1) (by decide)⟩

/-- C5: on an input whose depth surface never reaches the threshold the run
does not error: the first hole mask is empty, so the loop stops during its
first iteration having extracted nothing, and the output collection is
empty. -/
theorem C5_no_qualifying_sink (R C : ℕ) (S : Grid) (d : ℤ)
    (h : ∀ p ∈ posList R C,
      ((gget (sink R C S) p.1 p.2).all fun s => decide (s < d)) = true) :
    (run R C S d).normal = true ∧ (run R C S d).polys = [] ∧
      (run R C S d).iters = 1 := by
  have he : holEmpty R C S d = true := by
    apply (holEmpty_iff R C S d).mpr
    intro r c
    by_contra hne
    have hb := HOL_some_bounds R C S d r c hne
    obtain ⟨s, hs, _, hd⟩ := HOL_some_inv R C S d r c hne
    have hsink := ((snk_some_iff R C S r c s).mp hs).1
    have := h (r, c) (mem_posList R C r c hb.1 hb.2)
    rw [show gget (sink R C S) (r, c).1 (r, c).2 = some s from hsink] at this
    have : decide (s < d) = true := this
    have : s < d := of_decide_eq_true this
    omega
  unfold run
  rw [loopRun_succ R C d (dataCount R C S) S [], if_pos (by rw [he])]
  exact ⟨rfl, rfl, rfl⟩

/-- C5 witness: the 3 × 3 pit demo grid with threshold 2 (its only
depression has depth 1). -/
theorem C5_no_qualifying_sink_witness :
    (∀ p ∈ posList 3 3,
      ((gget (sink 3 3 pitDemo3) p.1 p.2).all fun s => decide (s < 2)) = true) ∧
    ((run 3 3 pitDemo3 2).normal = true ∧ (run 3 3 pitDemo3 2).polys = [] ∧
      (run 3 3 pitDemo3 2).iters = 1) :=
  ⟨by decide, C5_no_qualifying_sink 3 3 pitDemo3 2 (by decide)⟩

/-- Scenario A's grid: a 5 × 5 surface, flat rim at elevation 1, one-cell
flat-bottom pit of depth 1 at the centre. -/
def pitDemo5 : Grid :=
  [[some 1, some 1, some 1, some 1, some 1],
   [some 1, some 1, some 1, some 1, some 1],
   [some 1, some 1, some 0, some 1, some 1],
   [some 1, some 1, some 1, some 1, some 1],
   [some 1, some 1, some 1, some 1, some 1]]

set_option maxRecDepth 1000000 in
/-- C9 (Scenario A): with `d = 1`, the fill raises the centre to rim level,
there is exactly one region, its zonal maximum is 1, the hole mask marks
only the centre cell, the output holds exactly one single-cell polygon with
`GRIDCODE = 1`, and the run ends after one extraction iteration (the loop
enters its second iteration only to find the hole mask empty and stop, so
`iters = 2` with a single extracting iteration). -/
theorem C9_scenario_A :
    Fill 5 5 pitDemo5 =
      [[some 1, some 1, some 1, some 1, some 1],
       [some 1, some 1, some 1, some 1, some 1],
       [some 1, some 1, some 1, some 1, some 1],
       [some 1, some 1, some 1, some 1, some 1],
       [some 1, some 1, some 1, some 1, some 1]] ∧
    (labIds 5 5 (mskAt 5 5 pitDemo5)).length = 1 ∧
    labAt 5 5 (mskAt 5 5 pitDemo5) 2 2 = 1 ∧
    MAXtab 5 5 pitDemo5 1 = some 1 ∧
    HOL 5 5 pitDemo5 1 =
      [[none, none, none, none, none],
       [none, none, none, none, none],
       [none, none, some 1, none, none],
       [none, none, none, none, none],
       [none, none, none, none, none]] ∧
    (run 5 5 pitDemo5 1).polys = [⟨[(2, 2)], 1⟩] ∧
    (run 5 5 pitDemo5 1).iters = 2 ∧
    (run 5 5 pitDemo5 1).normal = true := by
  refine ⟨?_, ?_, ?_, ?_, ?_, ?_, ?_, ?_⟩ <;> decide

/-- C10: before the first iteration the output feature class is created at
the output path with overwrite enabled (`arcpy.env.overwriteOutput = True`,
line 7; `CreateFeatureclass_management`, line 52): whatever was stored
there before is silently replaced by an empty layer, and the final stored
content is exactly the run's polygon list — in particular `some []`, an
empty layer, when the run extracts nothing. -/
theorem C10_overwrite_before_loop (R C : ℕ) (S : Grid) (d : ℤ)
    (prior : Option (List Poly)) :
    createLayer true prior = some [] ∧
    runStore R C S d prior = some ((run R C S d).polys) := by
  have h1 : createLayer true prior = some [] := by
    cases prior <;> rfl
  refine ⟨h1, ?_⟩
  unfold runStore
  rw [h1]
  show some ([] ++ (run R C S d).polys) = some ((run R C S d).polys)
  rw [List.nil_append]

/-! ### Correctness of the region labelling: equal ids = 4-connected

These lemmas identify the label classes of `labAt` with the 4-connected
components of the mask, the key fact behind the zonal statistics and the
threshold-monotonicity property. -/

/-- 4-connectivity within a mask. -/
inductive Conn (m : ℕ → ℕ → Bool) (p : ℕ × ℕ) : ℕ × ℕ → Prop
  | refl : m p.1 p.2 = true → Conn m p p
  | tail (q q' : ℕ × ℕ) : Conn m p q → adjP q.1 q.2 q'.1 q'.2 →
      m q'.1 q'.2 = true → Conn m p q'

theorem Conn.mask_right {m : ℕ → ℕ → Bool} {p q : ℕ × ℕ} (h : Conn m p q) :
    m q.1 q.2 = true := by
  cases h with
  | refl h => exact h
  | tail _ _ _ _ h => exact h

theorem Conn.mask_left {m : ℕ → ℕ → Bool} {p q : ℕ × ℕ} (h : Conn m p q) :
    m p.1 p.2 = true := by
  induction h with
  | refl h => exact h
  | tail _ _ _ _ _ ih => exact ih

theorem Conn.trans {m : ℕ → ℕ → Bool} {p q r : ℕ × ℕ}
    (h1 : Conn m p q) (h2 : Conn m q r) : Conn m p r := by
  induction h2 with
  | refl => exact h1
  | tail s s' _ hadj hm ih => exact Conn.tail s s' ih hadj hm

theorem Conn.symm {m : ℕ → ℕ → Bool} {p q : ℕ × ℕ} (h : Conn m p q) :
    Conn m q p := by
  induction h with
  | refl h => exact Conn.refl h
  | tail q q' hpq hadj hm ih =>
    have hq : Conn m q' q :=
      Conn.tail q' q (Conn.refl hm) (adjP_symm _ _ _ _ hadj) hpq.mask_right
    exact hq.trans ih

theorem Conn.mono {m m' : ℕ → ℕ → Bool}
    (hmm : ∀ r c, m r c = true → m' r c = true) {p q : ℕ × ℕ}
    (h : Conn m p q) : Conn m' p q := by
  induction h with
  | refl h => exact Conn.refl (hmm p.1 p.2 h)
  | tail q q' _ hadj hm ih => exact Conn.tail q q' ih hadj (hmm q'.1 q'.2 hm)

theorem Conn.step {m : ℕ → ℕ → Bool} {p q : ℕ × ℕ} (hp : m p.1 p.2 = true)
    (hq : m q.1 q.2 = true) (hadj : adjP p.1 p.2 q.1 q.2) : Conn m p q :=
  Conn.tail p q (Conn.refl hp) hadj hq

/-- At the fixpoint, adjacent mask cells carry equal raw labels. -/
theorem labRaw_adj_eq (R C : ℕ) (m : ℕ → ℕ → Bool)
    (hm : ∀ r c, m r c = true → r < R ∧ c < C) (r c r' c' : ℕ)
    (h1 : m r c = true) (h2 : m r' c' = true) (hadj : adjP r c r' c') :
    lget (labRaw R C m) r c = lget (labRaw R C m) r' c' := by
  have key : ∀ a b a' b', m a b = true → m a' b' = true → adjP a b a' b' →
      lget (labRaw R C m) a b ≤ lget (labRaw R C m) a' b' := by
    intro a b a' b' ha ha' hadj
    have hb := hm a b ha
    have hfix := lstep_labRaw R C m
    conv_lhs => rw [← hfix]
    rw [lget_lstep R C m _ a b hb.1 hb.2]
    unfold labCell
    rw [ha]
    simp only [if_true]
    exact foldLab_le_mem m _ (nbrs a b) _ (a', b') hadj ha'
  exact le_antisymm (key r c r' c' h1 h2 hadj)
    (key r' c' r c h2 h1 (adjP_symm _ _ _ _ hadj))

theorem labRaw_eq_of_conn (R C : ℕ) (m : ℕ → ℕ → Bool)
    (hm : ∀ r c, m r c = true → r < R ∧ c < C) (p q : ℕ × ℕ)
    (h : Conn m p q) : lget (labRaw R C m) p.1 p.2 = lget (labRaw R C m) q.1 q.2 := by
  induction h with
  | refl => rfl
  | tail q q' hpq hadj hmq ih =>
    rw [ih]
    exact labRaw_adj_eq R C m hm q.1 q.2 q'.1 q'.2 hpq.mask_right hmq hadj

/-- Along the propagation, the label of a mask cell is always the initial
index of some cell connected to it. -/
theorem labIter_conn_witness (R C : ℕ) (m : ℕ → ℕ → Bool)
    (hm : ∀ r c, m r c = true → r < R ∧ c < C) (k : ℕ) :
    ∀ r c, m r c = true → ∃ q : ℕ × ℕ, Conn m (r, c) q ∧
      lget ((lstep R C m)^[k] (labL0 R C m)) r c = lget (labL0 R C m) q.1 q.2 := by
  induction k with
  | zero =>
    intro r c h
    exact ⟨(r, c), Conn.refl h, by rw [Function.iterate_zero_apply]⟩
  | succ k ih =>
    intro r c h
    have hb := hm r c h
    rw [Function.iterate_succ_apply' (lstep R C m) k,
      lget_lstep R C m _ r c hb.1 hb.2]
    unfold labCell
    rw [h]
    simp only [if_true]
    rcases foldLab_cases m ((lstep R C m)^[k] (labL0 R C m)) (nbrs r c)
      (lget ((lstep R C m)^[k] (labL0 R C m)) r c) with hc | ⟨p, hp, hmp, he⟩
    · rw [hc]
      exact ih r c h
    · rw [he]
      obtain ⟨q, hq, hqe⟩ := ih p.1 p.2 hmp
      refine ⟨q, ?_, hqe⟩
      have hadj : adjP r c p.1 p.2 := by
        show (p.1, p.2) ∈ nbrs r c
        simpa using hp
      exact (Conn.step h hmp hadj).trans hq

/-- The converged raw label of a mask cell is the initial index of a
connected cell. -/
theorem labRaw_conn_witness (R C : ℕ) (m : ℕ → ℕ → Bool)
    (hm : ∀ r c, m r c = true → r < R ∧ c < C) (r c : ℕ) (h : m r c = true) :
    ∃ q : ℕ × ℕ, Conn m (r, c) q ∧
      lget (labRaw R C m) r c = lget (labL0 R C m) q.1 q.2 :=
  labIter_conn_witness R C m hm (μlab R C (labL0 R C m)) r c h

theorem lget_labL0 (R C : ℕ) (m : ℕ → ℕ → Bool) (r c : ℕ) (hr : r < R) (hc : c < C) :
    lget (labL0 R C m) r c = if m r c then r * C + c + 1 else 0 :=
  lget_build R C _ r c hr hc

/-- The initial raster index is injective on in-bounds cells. -/
theorem labL0_inj (R C : ℕ) (m : ℕ → ℕ → Bool) (p q : ℕ × ℕ)
    (hp : p.1 < R ∧ p.2 < C) (hq : q.1 < R ∧ q.2 < C)
    (hmp : m p.1 p.2 = true) (hmq : m q.1 q.2 = true)
    (h : lget (labL0 R C m) p.1 p.2 = lget (labL0 R C m) q.1 q.2) : p = q := by
  rw [lget_labL0 R C m p.1 p.2 hp.1 hp.2, lget_labL0 R C m q.1 q.2 hq.1 hq.2,
    if_pos hmp, if_pos hmq] at h
  have h' : p.1 * C + p.2 = q.1 * C + q.2 := by omega
  have hrow : p.1 = q.1 := by
    rcases Nat.lt_trichotomy p.1 q.1 with hlt | heq | hgt
    · exfalso
      have : p.1 * C + p.2 < q.1 * C + q.2 := by
        have h1 : p.1 + 1 ≤ q.1 := hlt
        have h2 : (p.1 + 1) * C ≤ q.1 * C := Nat.mul_le_mul_right C h1
        have h3 : p.1 * C + p.2 < p.1 * C + C := by omega
        calc p.1 * C + p.2 < p.1 * C + C := h3
          _ = (p.1 + 1) * C := by ring
          _ ≤ q.1 * C := h2
          _ ≤ q.1 * C + q.2 := Nat.le_add_right _ _
      omega
    · exact heq
    · exfalso
      have : q.1 * C + q.2 < p.1 * C + p.2 := by
        have h1 : q.1 + 1 ≤ p.1 := hgt
        have h2 : (q.1 + 1) * C ≤ p.1 * C := Nat.mul_le_mul_right C h1
        have h3 : q.1 * C + q.2 < q.1 * C + C := by omega
        calc q.1 * C + q.2 < q.1 * C + C := h3
          _ = (q.1 + 1) * C := by ring
          _ ≤ p.1 * C := h2
          _ ≤ p.1 * C + p.2 := Nat.le_add_right _ _
      omega
  have hcol : p.2 = q.2 := by
    rw [hrow] at h'
    omega
  exact Prod.ext hrow hcol

/-- Equal converged raw labels on mask cells force 4-connectivity. -/
theorem conn_of_labRaw_eq (R C : ℕ) (m : ℕ → ℕ → Bool)
    (hm : ∀ r c, m r c = true → r < R ∧ c < C) (p q : ℕ × ℕ)
    (hmp : m p.1 p.2 = true) (hmq : m q.1 q.2 = true)
    (h : lget (labRaw R C m) p.1 p.2 = lget (labRaw R C m) q.1 q.2) :
    Conn m p q := by
  obtain ⟨p', hcp, hep⟩ := labRaw_conn_witness R C m hm p.1 p.2 hmp
  obtain ⟨q', hcq, heq⟩ := labRaw_conn_witness R C m hm q.1 q.2 hmq
  have hpq : p' = q' := by
    apply labL0_inj R C m p' q' (hm p'.1 p'.2 hcp.mask_right)
      (hm q'.1 q'.2 hcq.mask_right) hcp.mask_right hcq.mask_right
    rw [← hep, ← heq, h]
  have hcp' : Conn m (p.1, p.2) q' := hpq ▸ hcp
  have := hcp'.trans hcq.symm
  simpa using this

/-- The two directions together: on mask cells, equal converged raw labels
characterise 4-connectivity. -/
theorem labRaw_eq_iff_conn (R C : ℕ) (m : ℕ → ℕ → Bool)
    (hm : ∀ r c, m r c = true → r < R ∧ c < C) (p q : ℕ × ℕ)
    (hmp : m p.1 p.2 = true) (hmq : m q.1 q.2 = true) :
    lget (labRaw R C m) p.1 p.2 = lget (labRaw R C m) q.1 q.2 ↔ Conn m p q := by
  constructor
  · exact conn_of_labRaw_eq R C m hm p q hmp hmq
  · intro h
    have := labRaw_eq_of_conn R C m hm p q h
    simpa using this

/-- Renumbered ids inherit the characterisation: on mask cells, equal
`labAt` ids characterise 4-connectivity. -/
theorem labAt_eq_iff_conn (R C : ℕ) (m : ℕ → ℕ → Bool)
    (hm : ∀ r c, m r c = true → r < R ∧ c < C) (p q : ℕ × ℕ)
    (hmp : m p.1 p.2 = true) (hmq : m q.1 q.2 = true) :
    labAt R C m p.1 p.2 = labAt R C m q.1 q.2 ↔ Conn m p q := by
  rw [← labRaw_eq_iff_conn R C m hm p q hmp hmq]
  constructor
  · intro h
    have hbp := hm p.1 p.2 hmp
    have hbq := hm q.1 q.2 hmq
    have hvp := labRaw_pos R C m hm p.1 p.2 hmp
    have hvq := labRaw_pos R C m hm q.1 q.2 hmq
    have hmemp : lget (labRaw R C m) p.1 p.2 ∈ labIds R C m := by
      apply (mem_labIds R C m _).mpr
      refine ⟨by omega, ?_⟩
      unfold labList
      exact List.mem_map_of_mem _ (mem_posList R C p.1 p.2 hbp.1 hbp.2)
    have hmemq : lget (labRaw R C m) q.1 q.2 ∈ labIds R C m := by
      apply (mem_labIds R C m _).mpr
      refine ⟨by omega, ?_⟩
      unfold labList
      exact List.mem_map_of_mem _ (mem_posList R C q.1 q.2 hbq.1 hbq.2)
    obtain ⟨ip, hip⟩ := listIdx_isSome (labIds R C m) _ hmemp
    obtain ⟨iq, hiq⟩ := listIdx_isSome (labIds R C m) _ hmemq
    have hp' : labAt R C m p.1 p.2 = ip + 1 := by
      unfold labAt
      rw [hip]
    have hq' : labAt R C m q.1 q.2 = iq + 1 := by
      unfold labAt
      rw [hiq]
    rw [hp', hq'] at h
    have hii : ip = iq := by omega
    have e1 := listIdx_some_nthD (labIds R C m) _ _ hip
    have e2 := listIdx_some_nthD (labIds R C m) _ _ hiq
    rw [← e1, ← e2, hii]
  · intro h
    unfold labAt
    rw [h]

/-! ### Threshold monotonicity: the cross-run surface invariant

Comparing the surfaces of two runs with thresholds `d1 ≤ d2` on the same
input, the loop maintains: the `d2`-surface holds the same values as the
`d1`-surface wherever it has data, and its data set is closed under
adjacency to data cells of the `d1`-surface — a union of 4-connected
components of the `d1`-surface's data extent.  Under this invariant fill,
depth, regions and zonal maxima agree on the `d2`-surface's data cells. -/

def Inv (R C : ℕ) (S1 S2 : Grid) : Prop :=
  wf R C S1 ∧ wf R C S2 ∧
  (∀ r c, gget S2 r c = none ∨ gget S2 r c = gget S1 r c) ∧
  (∀ r c r' c', gget S2 r c ≠ none → adjP r c r' c' →
    gget S1 r' c' ≠ none → gget S2 r' c' ≠ none)

theorem Inv_refl (R C : ℕ) (S : Grid) (hwf : wf R C S) : Inv R C S S :=
  ⟨hwf, hwf, fun _ _ => Or.inr rfl, fun _ _ _ _ _ _ h => h⟩

theorem Inv_some_eq (R C : ℕ) (S1 S2 : Grid) (hI : Inv R C S1 S2) (r c : ℕ)
    (h : gget S2 r c ≠ none) : gget S2 r c = gget S1 r c := by
  rcases hI.2.2.1 r c with hn | he
  · exact absurd hn h
  · exact he

theorem Inv_nbr_none_iff (R C : ℕ) (S1 S2 : Grid) (hI : Inv R C S1 S2) (r c : ℕ)
    (h : gget S2 r c ≠ none) (r' c' : ℕ) (hadj : adjP r c r' c') :
    (gget S2 r' c' = none ↔ gget S1 r' c' = none) := by
  constructor
  · intro h2
    by_contra h1
    exact (hI.2.2.2 r c r' c' h hadj h1) h2
  · intro h1
    rcases hI.2.2.1 r' c' with hn | he
    · exact hn
    · rw [he]; exact h1

theorem isBdry_Inv (R C : ℕ) (S1 S2 : Grid) (hI : Inv R C S1 S2) (r c : ℕ)
    (h : gget S2 r c ≠ none) : isBdry R C S2 r c = isBdry R C S1 r c := by
  unfold isBdry
  have : ((nbrs r c).any fun p => (gget S2 p.1 p.2).isNone) =
      ((nbrs r c).any fun p => (gget S1 p.1 p.2).isNone) := by
    apply anyCongr
    intro p hp
    have hadj : adjP r c p.1 p.2 := by
      show (p.1, p.2) ∈ nbrs r c
      simpa using hp
    have hiff := Inv_nbr_none_iff R C S1 S2 hI r c h p.1 p.2 hadj
    show (gget S2 p.1 p.2).isNone = (gget S1 p.1 p.2).isNone
    cases h2 : gget S2 p.1 p.2 with
    | none =>
      rw [hiff.mp h2]
    | some v =>
      cases h1 : gget S1 p.1 p.2 with
      | none =>
        rw [hiff.mpr h1] at h2
        cases h2
      | some w => rfl
  rw [this]

theorem escape_data (R C : ℕ) (S : Grid) (t : ℤ) (r c : ℕ)
    (h : Escape R C S t r c) : gget S r c ≠ none := by
  cases h with
  | base r c v hbd hS hvt => rw [hS]; exact Option.some_ne_none v
  | step r c r' c' v hS hvt hadj hesc => rw [hS]; exact Option.some_ne_none v

theorem escape_Inv_mp (R C : ℕ) (S1 S2 : Grid) (hI : Inv R C S1 S2) (t : ℤ)
    (r c : ℕ) (h : Escape R C S2 t r c) : Escape R C S1 t r c := by
  induction h with
  | base r c v hbd hS hvt =>
    have hdat : gget S2 r c ≠ none := by rw [hS]; exact Option.some_ne_none v
    refine Escape.base r c v ?_ ?_ hvt
    · rw [← isBdry_Inv R C S1 S2 hI r c hdat]; exact hbd
    · rw [← Inv_some_eq R C S1 S2 hI r c hdat]; exact hS
  | step r c r' c' v hS hvt hadj hesc ih =>
    have hdat : gget S2 r c ≠ none := by rw [hS]; exact Option.some_ne_none v
    refine Escape.step r c r' c' v ?_ hvt hadj ih
    rw [← Inv_some_eq R C S1 S2 hI r c hdat]; exact hS

theorem escape_Inv_mpr (R C : ℕ) (S1 S2 : Grid) (hI : Inv R C S1 S2) (t : ℤ)
    (r c : ℕ) (h : Escape R C S1 t r c) :
    gget S2 r c ≠ none → Escape R C S2 t r c := by
  induction h with
  | base r c v hbd hS hvt =>
    intro hdat
    refine Escape.base r c v ?_ ?_ hvt
    · rw [isBdry_Inv R C S1 S2 hI r c hdat]; exact hbd
    · rw [Inv_some_eq R C S1 S2 hI r c hdat]; exact hS
  | step r c r' c' v hS hvt hadj hesc ih =>
    intro hdat
    have hdat' : gget S2 r' c' ≠ none :=
      hI.2.2.2 r c r' c' hdat hadj (escape_data R C S1 t r' c' hesc)
    refine Escape.step r c r' c' v ?_ hvt hadj (ih hdat')
    rw [Inv_some_eq R C S1 S2 hI r c hdat]; exact hS

/-- Under the invariant, the filled surfaces agree on the data cells of the
`d2`-surface. -/
theorem Fill_Inv (R C : ℕ) (S1 S2 : Grid) (hI : Inv R C S1 S2) (r c : ℕ)
    (h : gget S2 r c ≠ none) :
    gget (Fill R C S2) r c = gget (Fill R C S1) r c := by
  cases hS2 : gget S2 r c with
  | none => exact absurd hS2 h
  | some v =>
    have hS1 : gget S1 r c = some v := by
      rw [← Inv_some_eq R C S1 S2 hI r c h]; exact hS2
    obtain ⟨w2, hw2, _, _⟩ := Fill_total R C S2 hI.2.1 r c v hS2
    obtain ⟨w1, hw1, _, _⟩ := Fill_total R C S1 hI.1 r c v hS1
    have h21 : w2 ≤ w1 := by
      have hesc1 : Escape R C S1 w1 r c :=
        (Wfix_le_iff R C S1 hI.1 w1 r c).mp ⟨w1, hw1, le_refl w1⟩
      have hesc2 : Escape R C S2 w1 r c :=
        escape_Inv_mpr R C S1 S2 hI w1 r c hesc1 h
      obtain ⟨w2', hw2', hle⟩ := (Wfix_le_iff R C S2 hI.2.1 w1 r c).mpr hesc2
      have : w2' = w2 := by
        have := hw2'.symm.trans hw2
        injection this
      rw [this] at hle
      exact hle
    have h12 : w1 ≤ w2 := by
      have hesc2 : Escape R C S2 w2 r c :=
        (Wfix_le_iff R C S2 hI.2.1 w2 r c).mp ⟨w2, hw2, le_refl w2⟩
      have hesc1 : Escape R C S1 w2 r c :=
        escape_Inv_mp R C S1 S2 hI w2 r c hesc2
      obtain ⟨w1', hw1', hle⟩ := (Wfix_le_iff R C S1 hI.1 w2 r c).mpr hesc1
      have : w1' = w1 := by
        have := hw1'.symm.trans hw1
        injection this
      rw [this] at hle
      exact hle
    rw [hw1, hw2, le_antisymm h21 h12]

theorem sink_Inv (R C : ℕ) (S1 S2 : Grid) (hI : Inv R C S1 S2) (r c : ℕ)
    (h : gget S2 r c ≠ none) :
    gget (sink R C S2) r c = gget (sink R C S1) r c := by
  have hb := gget_some_bounds R C S2 hI.2.1 r c h
  rw [gget_sink R C S2 r c hb.1 hb.2, gget_sink R C S1 r c hb.1 hb.2,
    Fill_Inv R C S1 S2 hI r c h, Inv_some_eq R C S1 S2 hI r c h]

theorem snk_Inv (R C : ℕ) (S1 S2 : Grid) (hI : Inv R C S1 S2) (r c : ℕ)
    (h : gget S2 r c ≠ none) :
    gget (snk R C S2) r c = gget (snk R C S1) r c := by
  have hb := gget_some_bounds R C S2 hI.2.1 r c h
  rw [gget_snk R C S2 r c hb.1 hb.2, gget_snk R C S1 r c hb.1 hb.2,
    sink_Inv R C S1 S2 hI r c h]

theorem mskAt_Inv_imp (R C : ℕ) (S1 S2 : Grid) (hI : Inv R C S1 S2) (r c : ℕ)
    (h : mskAt R C S2 r c = true) : mskAt R C S1 r c = true := by
  rw [mskAt_true_iff] at h ⊢
  have hdat : gget S2 r c ≠ none := snk_some_S R C S2 r c h
  rw [← snk_Inv R C S1 S2 hI r c hdat]
  exact h

theorem mskAt_Inv_closed (R C : ℕ) (S1 S2 : Grid) (hI : Inv R C S1 S2)
    (r c r' c' : ℕ) (h2 : mskAt R C S2 r c = true) (hadj : adjP r c r' c')
    (h1 : mskAt R C S1 r' c' = true) : mskAt R C S2 r' c' = true := by
  rw [mskAt_true_iff] at h2 h1 ⊢
  have hdat : gget S2 r c ≠ none := snk_some_S R C S2 r c h2
  have hdat1 : gget S1 r' c' ≠ none := snk_some_S R C S1 r' c' h1
  have hdat2 : gget S2 r' c' ≠ none := hI.2.2.2 r c r' c' hdat hadj hdat1
  rw [snk_Inv R C S1 S2 hI r' c' hdat2]
  exact h1

/-- Walks transfer back into the smaller mask when its cells are closed
under adjacency to cells of the bigger one. -/
theorem conn_transfer (m1 m2 : ℕ → ℕ → Bool)
    (hcl : ∀ r c r' c', m2 r c = true → adjP r c r' c' → m1 r' c' = true →
      m2 r' c' = true)
    (p q : ℕ × ℕ) (hp : m2 p.1 p.2 = true) (h : Conn m1 p q) : Conn m2 p q := by
  induction h with
  | refl => exact Conn.refl hp
  | tail q q' hpq hadj hm ih =>
    exact Conn.tail q q' ih hadj (hcl q.1 q.2 q'.1 q'.2 ih.mask_right hadj hm)

/-- Under the invariant, the zonal maximum of a cell's region agrees
between the two surfaces, on the depth mask of the `d2`-surface. -/
theorem MAXtab_Inv (R C : ℕ) (S1 S2 : Grid) (hI : Inv R C S1 S2) (r c : ℕ)
    (hm2 : mskAt R C S2 r c = true) :
    MAXtab R C S2 (labAt R C (mskAt R C S2) r c) =
      MAXtab R C S1 (labAt R C (mskAt R C S1) r c) := by
  have hm1 : mskAt R C S1 r c = true := mskAt_Inv_imp R C S1 S2 hI r c hm2
  have hb := mskAt_bounds R C S2 r c hm2
  have hmOK2 : ∀ a b, mskAt R C S2 a b = true → a < R ∧ b < C :=
    fun a b h => mskAt_bounds R C S2 a b h
  have hmOK1 : ∀ a b, mskAt R C S1 a b = true → a < R ∧ b < C :=
    fun a b h => mskAt_bounds R C S1 a b h
  -- both zones are nonempty (they contain the cell itself)
  cases hs2 : gget (snk R C S2) r c with
  | none => exact absurd ((mskAt_true_iff R C S2 r c).mp hm2) (by rw [hs2]; simp)
  | some s =>
    have hdat : gget S2 r c ≠ none :=
      snk_some_S R C S2 r c (by rw [hs2]; exact Option.some_ne_none s)
    have hs1 : gget (snk R C S1) r c = some s := by
      rw [← snk_Inv R C S1 S2 hI r c hdat]; exact hs2
    have hmem2 : s ∈ zoneVals R C S2 (labAt R C (mskAt R C S2) r c) :=
      (mem_zoneVals R C S2 _ s).mpr ⟨(r, c), mem_posList R C r c hb.1 hb.2, rfl, hs2⟩
    have hmem1 : s ∈ zoneVals R C S1 (labAt R C (mskAt R C S1) r c) :=
      (mem_zoneVals R C S1 _ s).mpr ⟨(r, c), mem_posList R C r c hb.1 hb.2, rfl, hs1⟩
    obtain ⟨M2, hM2⟩ := qmax?_isSome _ (List.ne_nil_of_mem hmem2)
    obtain ⟨M1, hM1⟩ := qmax?_isSome _ (List.ne_nil_of_mem hmem1)
    -- each side's maximum lies in the other side's zone
    have hin1 : M2 ∈ zoneVals R C S1 (labAt R C (mskAt R C S1) r c) := by
      obtain ⟨p, _, hlab, hsp⟩ := (mem_zoneVals R C S2 _ M2).mp (qmax?_mem _ M2 hM2)
      have hmp2 : mskAt R C S2 p.1 p.2 = true := by
        rw [mskAt_true_iff]
        rw [hsp]; exact Option.some_ne_none M2
      have hconn2 : Conn (mskAt R C S2) (r, c) p :=
        (labAt_eq_iff_conn R C (mskAt R C S2) hmOK2 (r, c) p hm2 hmp2).mp hlab.symm
      have hconn1 : Conn (mskAt R C S1) (r, c) p :=
        hconn2.mono (fun a b h => mskAt_Inv_imp R C S1 S2 hI a b h)
      have hmp1 : mskAt R C S1 p.1 p.2 = true := hconn1.mask_right
      have hlab1 : labAt R C (mskAt R C S1) p.1 p.2 = labAt R C (mskAt R C S1) r c :=
        ((labAt_eq_iff_conn R C (mskAt R C S1) hmOK1 (r, c) p hm1 hmp1).mpr hconn1).symm
      have hdatp : gget S2 p.1 p.2 ≠ none :=
        snk_some_S R C S2 p.1 p.2 (by rw [hsp]; exact Option.some_ne_none M2)
      have hsp1 : gget (snk R C S1) p.1 p.2 = some M2 := by
        rw [← snk_Inv R C S1 S2 hI p.1 p.2 hdatp]; exact hsp
      have hbp := mskAt_bounds R C S2 p.1 p.2 hmp2
      exact (mem_zoneVals R C S1 _ M2).mpr
        ⟨p, mem_posList R C p.1 p.2 hbp.1 hbp.2, hlab1, hsp1⟩
    have hin2 : M1 ∈ zoneVals R C S2 (labAt R C (mskAt R C S2) r c) := by
      obtain ⟨p, _, hlab, hsp⟩ := (mem_zoneVals R C S1 _ M1).mp (qmax?_mem _ M1 hM1)
      have hmp1 : mskAt R C S1 p.1 p.2 = true := by
        rw [mskAt_true_iff]
        rw [hsp]; exact Option.some_ne_none M1
      have hconn1 : Conn (mskAt R C S1) (r, c) p :=
        (labAt_eq_iff_conn R C (mskAt R C S1) hmOK1 (r, c) p hm1 hmp1).mp hlab.symm
      have hconn2 : Conn (mskAt R C S2) (r, c) p :=
        conn_transfer (mskAt R C S1) (mskAt R C S2)
          (fun a b a' b' h2 hadj h1 => mskAt_Inv_closed R C S1 S2 hI a b a' b' h2 hadj h1)
          (r, c) p hm2 hconn1
      have hmp2 : mskAt R C S2 p.1 p.2 = true := hconn2.mask_right
      have hlab2 : labAt R C (mskAt R C S2) p.1 p.2 = labAt R C (mskAt R C S2) r c :=
        ((labAt_eq_iff_conn R C (mskAt R C S2) hmOK2 (r, c) p hm2 hmp2).mpr hconn2).symm
      have hdatp : gget S2 p.1 p.2 ≠ none :=
        snk_some_S R C S2 p.1 p.2 ((mskAt_true_iff R C S2 p.1 p.2).mp hmp2)
      have hsp2 : gget (snk R C S2) p.1 p.2 = some M1 := by
        rw [snk_Inv R C S1 S2 hI p.1 p.2 hdatp]; exact hsp
      have hbp := mskAt_bounds R C S2 p.1 p.2 hmp2
      exact (mem_zoneVals R C S2 _ M1).mpr
        ⟨p, mem_posList R C p.1 p.2 hbp.1 hbp.2, hlab2, hsp2⟩
    have h21 : M2 ≤ M1 := qmax?_ge _ M1 M2 hM1 hin1
    have h12 : M1 ≤ M2 := qmax?_ge _ M2 M1 hM2 hin2
    show qmax? (zoneVals R C S2 _) = qmax? (zoneVals R C S1 _)
    rw [hM2, hM1, le_antisymm h21 h12]

theorem MAXr_Inv (R C : ℕ) (S1 S2 : Grid) (hI : Inv R C S1 S2) (r c : ℕ)
    (hm2 : mskAt R C S2 r c = true) :
    gget (MAXr R C S2) r c = gget (MAXr R C S1) r c := by
  have hm1 : mskAt R C S1 r c = true := mskAt_Inv_imp R C S1 S2 hI r c hm2
  have hb := mskAt_bounds R C S2 r c hm2
  have hl2 : labAt R C (mskAt R C S2) r c ≠ 0 :=
    (labAt_msk_ne_zero_iff R C S2 r c).mpr ((mskAt_true_iff R C S2 r c).mp hm2)
  have hl1 : labAt R C (mskAt R C S1) r c ≠ 0 :=
    (labAt_msk_ne_zero_iff R C S1 r c).mpr ((mskAt_true_iff R C S1 r c).mp hm1)
  rw [gget_MAXr R C S2 r c hb.1 hb.2, gget_MAXr R C S1 r c hb.1 hb.2,
    if_neg hl2, if_neg hl1]
  exact MAXtab_Inv R C S1 S2 hI r c hm2

/-- Under the invariant, every hole cell at threshold `d2` is a hole cell
at any smaller threshold `d1` on the other surface. -/
theorem HOL_Inv (R C : ℕ) (S1 S2 : Grid) (d1 d2 : ℤ) (hI : Inv R C S1 S2)
    (hd : d1 ≤ d2) (r c : ℕ) (h : gget (HOL R C S2 d2) r c ≠ none) :
    gget (HOL R C S1 d1) r c ≠ none := by
  obtain ⟨s, hs2, hM2, hds⟩ := HOL_some_inv R C S2 d2 r c h
  have hb := HOL_some_bounds R C S2 d2 r c h
  have hm2 : mskAt R C S2 r c = true := by
    rw [mskAt_true_iff, hs2]; exact Option.some_ne_none s
  have hdat : gget S2 r c ≠ none :=
    snk_some_S R C S2 r c (by rw [hs2]; exact Option.some_ne_none s)
  have hs1 : gget (snk R C S1) r c = some s := by
    rw [← snk_Inv R C S1 S2 hI r c hdat]; exact hs2
  have hM1 : gget (MAXr R C S1) r c = some s := by
    rw [← MAXr_Inv R C S1 S2 hI r c hm2]; exact hM2
  rw [gget_HOL R C S1 d1 r c hb.1 hb.2, hs1, hM1]
  show (if d1 ≤ s then if s = s then some (1 : ℤ) else none else none) ≠ none
  rw [if_pos (le_trans hd hds), if_pos rfl]
  exact Option.some_ne_none 1

theorem holAt_Inv (R C : ℕ) (S1 S2 : Grid) (d1 d2 : ℤ) (hI : Inv R C S1 S2)
    (hd : d1 ≤ d2) (r c : ℕ) (h : holAt R C S2 d2 r c = true) :
    holAt R C S1 d1 r c = true := by
  have h' : gget (HOL R C S2 d2) r c ≠ none := by
    have : (gget (HOL R C S2 d2) r c).isSome = true := h
    rwa [Option.isSome_iff_ne_none] at this
  have := HOL_Inv R C S1 S2 d1 d2 hI hd r c h'
  show (gget (HOL R C S1 d1) r c).isSome = true
  rwa [Option.isSome_iff_ne_none]

theorem wf_DEM2 (R C : ℕ) (S : Grid) (d : ℤ) : wf R C (DEM2 R C S d) :=
  wf_build R C _

/-- The invariant survives one deflation step of each run. -/
theorem Inv_DEM2 (R C : ℕ) (S1 S2 : Grid) (d1 d2 : ℤ) (hI : Inv R C S1 S2)
    (hd : d1 ≤ d2) : Inv R C (DEM2 R C S1 d1) (DEM2 R C S2 d2) := by
  refine ⟨wf_DEM2 R C S1 d1, wf_DEM2 R C S2 d2, ?_, ?_⟩
  · intro r c
    cases h2 : gget (DEM2 R C S2 d2) r c with
    | none => exact Or.inl rfl
    | some v =>
      refine Or.inr ?_
      obtain ⟨M, s, hlab2, htab2, hd2M, hs2, hsM, hv⟩ :=
        (DEM2_some_iff R C S2 d2 r c v).mp h2
      have hm2 : mskAt R C S2 r c = true := by
        rw [mskAt_true_iff, hs2]; exact Option.some_ne_none s
      have hdat : gget S2 r c ≠ none :=
        snk_some_S R C S2 r c (by rw [hs2]; exact Option.some_ne_none s)
      have hs1 : gget (snk R C S1) r c = some s := by
        rw [← snk_Inv R C S1 S2 hI r c hdat]; exact hs2
      have hlab1 : labAt R C (mskAt R C S1) r c ≠ 0 :=
        (labAt_msk_ne_zero_iff R C S1 r c).mpr (by rw [hs1]; exact Option.some_ne_none s)
      have htab1 : MAXtab R C S1 (labAt R C (mskAt R C S1) r c) = some M := by
        rw [← MAXtab_Inv R C S1 S2 hI r c hm2]; exact htab2
      rw [(DEM2_some_iff R C S1 d1 r c v).mpr
        ⟨M, s, hlab1, htab1, le_trans hd hd2M, hs1, hsM, hv⟩]
  · intro r c r' c' h2 hadj h1'
    cases hv : gget (DEM2 R C S2 d2) r c with
    | none => exact absurd hv h2
    | some v =>
      cases hw : gget (DEM2 R C S1 d1) r' c' with
      | none => exact absurd hw h1'
      | some w =>
        obtain ⟨M, s, hlab2, htab2, hd2M, hs2, _, _⟩ :=
          (DEM2_some_iff R C S2 d2 r c v).mp hv
        obtain ⟨Mn, sn, hlab1n, htab1n, hd1Mn, hs1n, hsnMn, _⟩ :=
          (DEM2_some_iff R C S1 d1 r' c' w).mp hw
        have hm2 : mskAt R C S2 r c = true := by
          rw [mskAt_true_iff, hs2]; exact Option.some_ne_none s
        have hdat : gget S2 r c ≠ none :=
          snk_some_S R C S2 r c (by rw [hs2]; exact Option.some_ne_none s)
        have hdat1' : gget S1 r' c' ≠ none :=
          snk_some_S R C S1 r' c' (by rw [hs1n]; exact Option.some_ne_none sn)
        have hdat2' : gget S2 r' c' ≠ none := hI.2.2.2 r c r' c' hdat hadj hdat1'
        have hs2' : gget (snk R C S2) r' c' = some sn := by
          rw [snk_Inv R C S1 S2 hI r' c' hdat2']; exact hs1n
        have hm2' : mskAt R C S2 r' c' = true := by
          rw [mskAt_true_iff, hs2']; exact Option.some_ne_none sn
        have hmOK2 : ∀ a b, mskAt R C S2 a b = true → a < R ∧ b < C :=
          fun a b h => mskAt_bounds R C S2 a b h
        have hconn : Conn (mskAt R C S2) (r, c) (r', c') :=
          Conn.step hm2 hm2' hadj
        have hlabeq : labAt R C (mskAt R C S2) r c = labAt R C (mskAt R C S2) r' c' :=
          (labAt_eq_iff_conn R C (mskAt R C S2) hmOK2 (r, c) (r', c') hm2 hm2').mpr hconn
        have htab2' : MAXtab R C S2 (labAt R C (mskAt R C S2) r' c') = some M := by
          rw [← hlabeq]; exact htab2
        -- the two zonal maxima at (r', c') agree, identifying M with Mn
        have htab1' : MAXtab R C S1 (labAt R C (mskAt R C S1) r' c') = some M := by
          rw [← MAXtab_Inv R C S1 S2 hI r' c' hm2']; exact htab2'
        have hMn : M = Mn := by
          rw [htab1n] at htab1'
          injection htab1' with h
          exact h.symm
        have hlab2' : labAt R C (mskAt R C S2) r' c' ≠ 0 :=
          (labAt_msk_ne_zero_iff R C S2 r' c').mpr
            (by rw [hs2']; exact Option.some_ne_none sn)
        rw [(DEM2_some_iff R C S2 d2 r' c' (M - sn)).mpr
          ⟨M, sn, hlab2', htab2', hd2M, hs2', by rw [hMn]; exact hsnMn, rfl⟩]
        exact Option.some_ne_none (M - sn)

/-- The invariant holds between the `k`-th surfaces of the two runs. -/
theorem Inv_iter (R C : ℕ) (S : Grid) (d1 d2 : ℤ) (hwf : wf R C S)
    (hd : d1 ≤ d2) (k : ℕ) :
    Inv R C ((fun g => DEM2 R C g d1)^[k] S) ((fun g => DEM2 R C g d2)^[k] S) := by
  induction k with
  | zero =>
    rw [Function.iterate_zero_apply, Function.iterate_zero_apply]
    exact Inv_refl R C S hwf
  | succ k ih =>
    rw [Function.iterate_succ_apply' (fun g => DEM2 R C g d1) k,
      Function.iterate_succ_apply' (fun g => DEM2 R C g d2) k]
    exact Inv_DEM2 R C _ _ d1 d2 ih hd

/-! ### The extracted polygons, cell by cell -/

theorem mem_tabFrom {α : Type} (f : ℕ → α) (n : ℕ) :
    ∀ s x, x ∈ tabFrom f s n ↔ ∃ j, j < n ∧ x = f (s + j) := by
  induction n with
  | zero =>
    intro s x
    simp [tabFrom]
  | succ n ih =>
    intro s x
    show x ∈ f s :: tabFrom f (s + 1) n ↔ _
    rw [List.mem_cons, ih (s + 1) x]
    constructor
    · rintro (rfl | ⟨j, hj, rfl⟩)
      · exact ⟨0, by omega, by rw [Nat.add_zero]⟩
      · exact ⟨j + 1, by omega, by rw [show s + (j + 1) = s + 1 + j by omega]⟩
    · rintro ⟨j, hj, rfl⟩
      cases j with
      | zero => left; rw [Nat.add_zero]
      | succ j =>
        right
        exact ⟨j, by omega, by rw [show s + 1 + j = s + (j + 1) by omega]⟩

theorem mem_tabulate {α : Type} (f : ℕ → α) (n : ℕ) (x : α) :
    x ∈ tabulate f n ↔ ∃ j, j < n ∧ x = f j := by
  show x ∈ tabFrom f 0 n ↔ _
  rw [mem_tabFrom f n 0 x]
  constructor
  · rintro ⟨j, hj, rfl⟩
    exact ⟨j, hj, by rw [Nat.zero_add]⟩
  · rintro ⟨j, hj, rfl⟩
    exact ⟨j, hj, by rw [Nat.zero_add]⟩

theorem firstIdsAux_nodup (l : List ℕ) : ∀ acc : List ℕ, acc.Nodup →
    (firstIdsAux l acc).Nodup := by
  induction l with
  | nil =>
    intro acc h
    exact List.nodup_reverse.mpr h
  | cons y xs ih =>
    intro acc h
    rw [firstIdsAux_cons y xs acc]
    by_cases hc : y ≠ 0 ∧ y ∉ acc
    · rw [if_pos hc]
      exact ih (y :: acc) (List.nodup_cons.mpr ⟨hc.2, h⟩)
    · rw [if_neg hc]
      exact ih acc h

theorem labIds_nodup (R C : ℕ) (m : ℕ → ℕ → Bool) : (labIds R C m).Nodup :=
  firstIdsAux_nodup (labList R C m) [] List.nodup_nil

theorem listIdx_lt_length (l : List ℕ) : ∀ a i, listIdx l a = some i →
    i < l.length := by
  induction l with
  | nil => intro a i h; cases h
  | cons x xs ih =>
    intro a i h
    unfold listIdx at h
    by_cases hx : x = a
    · rw [if_pos hx] at h
      injection h with h
      rw [← h]
      exact Nat.succ_pos _
    · rw [if_neg hx] at h
      cases hj : listIdx xs a with
      | none => rw [hj] at h; cases h
      | some j =>
        rw [hj] at h
        injection h with h
        rw [← h]
        have := ih a j hj
        show j + 1 < xs.length + 1
        omega

theorem listIdx_nthD_self (l : List ℕ) : ∀ j, l.Nodup → j < l.length →
    listIdx l (nthD l j 0) = some j := by
  induction l with
  | nil => intro j _ h; simp at h
  | cons x xs ih =>
    intro j hnd hj
    cases j with
    | zero =>
      show (if x = x then some 0 else (listIdx xs x).map (· + 1)) = some 0
      rw [if_pos rfl]
    | succ j =>
      rw [nthD_cons_succ]
      have hne : x ≠ nthD xs j 0 := by
        intro he
        have hmem : nthD xs j 0 ∈ xs := nthD_mem xs j 0 (by
          have : j + 1 < xs.length + 1 := hj
          omega)
        rw [← he] at hmem
        exact (List.nodup_cons.mp hnd).1 hmem
      show (if x = nthD xs j 0 then some 0 else (listIdx xs (nthD xs j 0)).map (· + 1)) =
        some (j + 1)
      rw [if_neg hne, ih j (List.nodup_cons.mp hnd).2 (by
        have : j + 1 < xs.length + 1 := hj
        omega)]
      rfl

theorem mem_regionCells (R C : ℕ) (m : ℕ → ℕ → Bool) (i : ℕ) (x : ℕ × ℕ) :
    x ∈ regionCells R C m i ↔ x ∈ posList R C ∧ labAt R C m x.1 x.2 = i := by
  show x ∈ (posList R C).filter (fun p => lget (labG R C m) p.1 p.2 == i) ↔ _
  rw [List.mem_filter]
  constructor
  · rintro ⟨h1, h2⟩
    refine ⟨h1, ?_⟩
    rw [← lget_labG R C m x.1 x.2]
    simpa using h2
  · rintro ⟨h1, h2⟩
    refine ⟨h1, ?_⟩
    rw [← lget_labG R C m x.1 x.2] at h2
    simpa using h2

/-- One polygon of the vectorized hole raster. -/
def holPoly (R C : ℕ) (S : Grid) (d : ℤ) (j : ℕ) : Poly :=
  { cells := regionCells R C (holAt R C S d) (j + 1)
    gridcode :=
      match regionCells R C (holAt R C S d) (j + 1) with
      | [] => 0
      | p :: _ => (gget (HOL R C S d) p.1 p.2).getD 0 }

theorem HOLV1_eq (R C : ℕ) (S : Grid) (d : ℤ) :
    HOLV1 R C S d =
      tabulate (holPoly R C S d) (labIds R C (holAt R C S d)).length := rfl

theorem mem_HOLV1_iff (R C : ℕ) (S : Grid) (d : ℤ) (p : Poly) :
    p ∈ HOLV1 R C S d ↔
      ∃ j, j < (labIds R C (holAt R C S d)).length ∧ p = holPoly R C S d j := by
  rw [HOLV1_eq]
  exact mem_tabulate _ _ p

/-- A mask cell's region id, as a polygon index. -/
theorem labAt_pred_lt (R C : ℕ) (m : ℕ → ℕ → Bool)
    (hm : ∀ r c, m r c = true → r < R ∧ c < C) (x : ℕ × ℕ)
    (hx : m x.1 x.2 = true) :
    ∃ i, labAt R C m x.1 x.2 = i + 1 ∧ i < (labIds R C m).length := by
  have hb := hm x.1 x.2 hx
  have hraw := labRaw_pos R C m hm x.1 x.2 hx
  have hmemIds : lget (labRaw R C m) x.1 x.2 ∈ labIds R C m := by
    apply (mem_labIds R C m _).mpr
    refine ⟨by omega, ?_⟩
    show lget (labRaw R C m) x.1 x.2 ∈
      (posList R C).map (fun p => lget (labRaw R C m) p.1 p.2)
    exact List.mem_map_of_mem _ (mem_posList R C x.1 x.2 hb.1 hb.2)
  obtain ⟨i, hi⟩ := listIdx_isSome (labIds R C m) _ hmemIds
  refine ⟨i, ?_, listIdx_lt_length (labIds R C m) _ i hi⟩
  unfold labAt
  rw [hi]

/-- Per-iteration footprint containment: under the invariant, every polygon
extracted from the `d2`-surface has its cells inside one polygon extracted
from the `d1`-surface. -/
theorem HOLV1_mono (R C : ℕ) (S1 S2 : Grid) (d1 d2 : ℤ) (hI : Inv R C S1 S2)
    (hd : d1 ≤ d2) (p : Poly) (hp : p ∈ HOLV1 R C S2 d2) :
    ∃ q ∈ HOLV1 R C S1 d1, ∀ x ∈ p.cells, x ∈ q.cells := by
  have hmOK2 : ∀ a b, holAt R C S2 d2 a b = true → a < R ∧ b < C :=
    fun a b h => holAt_bounds R C S2 d2 a b h
  have hmOK1 : ∀ a b, holAt R C S1 d1 a b = true → a < R ∧ b < C :=
    fun a b h => holAt_bounds R C S1 d1 a b h
  have himp : ∀ a b, holAt R C S2 d2 a b = true → holAt R C S1 d1 a b = true :=
    fun a b h => holAt_Inv R C S1 S2 d1 d2 hI hd a b h
  rw [mem_HOLV1_iff] at hp
  obtain ⟨j, hj, rfl⟩ := hp
  -- a reference cell of region j+1 of the d2-hole mask
  have hidmem : nthD (labIds R C (holAt R C S2 d2)) j 0 ∈ labIds R C (holAt R C S2 d2) :=
    nthD_mem _ j 0 hj
  obtain ⟨hid0, hidlist⟩ := (mem_labIds R C (holAt R C S2 d2) _).mp hidmem
  have hidlist' : nthD (labIds R C (holAt R C S2 d2)) j 0 ∈
      (posList R C).map (fun p => lget (labRaw R C (holAt R C S2 d2)) p.1 p.2) :=
    hidlist
  obtain ⟨x0, hx0pos, hx0raw⟩ := List.mem_map.mp hidlist'
  have hx0lab : labAt R C (holAt R C S2 d2) x0.1 x0.2 = j + 1 := by
    unfold labAt
    rw [hx0raw, listIdx_nthD_self _ j (labIds_nodup R C (holAt R C S2 d2)) hj]
  have hx0m2 : holAt R C S2 d2 x0.1 x0.2 = true := by
    have : labAt R C (holAt R C S2 d2) x0.1 x0.2 ≠ 0 := by
      rw [hx0lab]
      exact Nat.succ_ne_zero j
    exact (labAt_ne_zero_iff R C (holAt R C S2 d2) hmOK2 x0.1 x0.2).mp this
  have hx0m1 : holAt R C S1 d1 x0.1 x0.2 = true := himp x0.1 x0.2 hx0m2
  obtain ⟨i, hi1, hilt⟩ := labAt_pred_lt R C (holAt R C S1 d1) hmOK1 x0 hx0m1
  refine ⟨holPoly R C S1 d1 i, (mem_HOLV1_iff R C S1 d1 _).mpr ⟨i, hilt, rfl⟩, ?_⟩
  intro x hx
  have hx' : x ∈ posList R C ∧ labAt R C (holAt R C S2 d2) x.1 x.2 = j + 1 :=
    (mem_regionCells R C (holAt R C S2 d2) (j + 1) x).mp hx
  have hxm2 : holAt R C S2 d2 x.1 x.2 = true := by
    have : labAt R C (holAt R C S2 d2) x.1 x.2 ≠ 0 := by
      rw [hx'.2]
      exact Nat.succ_ne_zero j
    exact (labAt_ne_zero_iff R C (holAt R C S2 d2) hmOK2 x.1 x.2).mp this
  have hconn2 : Conn (holAt R C S2 d2) x x0 :=
    (labAt_eq_iff_conn R C (holAt R C S2 d2) hmOK2 x x0 hxm2 hx0m2).mp
      (by rw [hx'.2, hx0lab])
  have hconn1 : Conn (holAt R C S1 d1) x x0 := hconn2.mono himp
  have hxm1 : holAt R C S1 d1 x.1 x.2 = true := hconn1.mask_left
  have hxlab1 : labAt R C (holAt R C S1 d1) x.1 x.2 = i + 1 := by
    rw [(labAt_eq_iff_conn R C (holAt R C S1 d1) hmOK1 x x0 hxm1 hx0m1).mpr hconn1]
    exact hi1
  show x ∈ regionCells R C (holAt R C S1 d1) (i + 1)
  exact (mem_regionCells R C (holAt R C S1 d1) (i + 1) x).mpr ⟨hx'.1, hxlab1⟩

/-! ### Decomposing a run into its per-iteration extractions -/

/-- Once the hole mask is empty, the deflation erases the whole surface:
the zonal maximum of each region is attained, so a surviving region would
put its crest cell in the mask. -/
theorem DEM2_allnone_of_holEmpty (R C : ℕ) (S : Grid) (d : ℤ)
    (h : holEmpty R C S d = true) : ∀ r c, gget (DEM2 R C S d) r c = none := by
  intro r c
  cases hv : gget (DEM2 R C S d) r c with
  | none => rfl
  | some v =>
    exfalso
    obtain ⟨M, s, hlab, htab, hdM, hs, _, _⟩ := (DEM2_some_iff R C S d r c v).mp hv
    have hMmem : M ∈ zoneVals R C S (labAt R C (mskAt R C S) r c) :=
      qmax?_mem _ M htab
    obtain ⟨p, _, hplab, hpsnk⟩ := (mem_zoneVals R C S _ M).mp hMmem
    have hbp := snk_some_bounds R C S p.1 p.2 (by rw [hpsnk]; exact Option.some_ne_none M)
    have hplab0 : labAt R C (mskAt R C S) p.1 p.2 ≠ 0 :=
      (labAt_msk_ne_zero_iff R C S p.1 p.2).mpr
        (by rw [hpsnk]; exact Option.some_ne_none M)
    have hpM : gget (MAXr R C S) p.1 p.2 = some M := by
      rw [gget_MAXr R C S p.1 p.2 hbp.1 hbp.2, if_neg hplab0, hplab]
      exact htab
    have hHOL : gget (HOL R C S d) p.1 p.2 ≠ none := by
      rw [gget_HOL R C S d p.1 p.2 hbp.1 hbp.2, hpsnk, hpM]
      show (if d ≤ M then if M = M then some (1 : ℤ) else none else none) ≠ none
      rw [if_pos hdM, if_pos rfl]
      exact Option.some_ne_none 1
    exact hHOL ((holEmpty_iff R C S d).mp h p.1 p.2)

theorem holEmpty_of_allnone (R C : ℕ) (S : Grid) (d : ℤ)
    (h : ∀ r c, gget S r c = none) : holEmpty R C S d = true := by
  apply (holEmpty_iff R C S d).mpr
  intro r c
  cases hH : gget (HOL R C S d) r c with
  | none => rfl
  | some v =>
    exfalso
    have hsnk : gget (snk R C S) r c ≠ none :=
      HOL_some_snk R C S d r c (by rw [hH]; exact Option.some_ne_none v)
    exact (snk_some_S R C S r c hsnk) (h r c)

theorem holEmpty_DEM2 (R C : ℕ) (S : Grid) (d : ℤ)
    (h : holEmpty R C S d = true) : holEmpty R C (DEM2 R C S d) d = true :=
  holEmpty_of_allnone R C _ d (DEM2_allnone_of_holEmpty R C S d h)

theorem holEmpty_iterate (R C : ℕ) (S : Grid) (d : ℤ)
    (h : holEmpty R C S d = true) (k : ℕ) :
    holEmpty R C ((fun g => DEM2 R C g d)^[k] S) d = true := by
  induction k with
  | zero => rw [Function.iterate_zero_apply]; exact h
  | succ k ih =>
    rw [Function.iterate_succ_apply' (fun g => DEM2 R C g d) k]
    exact holEmpty_DEM2 R C _ d ih

theorem HOLV1_nil (R C : ℕ) (S : Grid) (d : ℤ)
    (h : holEmpty R C S d = true) : HOLV1 R C S d = [] := by
  have hids : labIds R C (holAt R C S d) = [] := by
    cases hids' : labIds R C (holAt R C S d) with
    | nil => rfl
    | cons y t =>
      exfalso
      have hy : y ∈ labIds R C (holAt R C S d) := by
        rw [hids']
        exact List.mem_cons_self y t
      obtain ⟨hy0, hylist⟩ := (mem_labIds R C (holAt R C S d) _).mp hy
      have hylist' : y ∈ (posList R C).map
          (fun p => lget (labRaw R C (holAt R C S d)) p.1 p.2) := hylist
      obtain ⟨p, _, hpraw⟩ := List.mem_map.mp hylist'
      have hmask : holAt R C S d p.1 p.2 = true := by
        cases hm : holAt R C S d p.1 p.2 with
        | true => rfl
        | false =>
          rw [labRaw_zero R C (holAt R C S d) p.1 p.2 hm] at hpraw
          exact (hy0 hpraw.symm).elim
      have hH : gget (HOL R C S d) p.1 p.2 ≠ none := by
        have : (gget (HOL R C S d) p.1 p.2).isSome = true := hmask
        rwa [Option.isSome_iff_ne_none] at this
      exact hH ((holEmpty_iff R C S d).mp h p.1 p.2)
  rw [HOLV1_eq, hids]
  rfl

/-- The polygons of a completed run are exactly the per-iteration
extractions from the successive deflated surfaces. -/
theorem loopRun_polys_iff (R C : ℕ) (d : ℤ) (fuel : ℕ) :
    ∀ dem acc, dataCount R C dem < fuel → ∀ p : Poly,
      (p ∈ (loopRun R C d fuel dem acc).polys ↔
        p ∈ acc ∨ ∃ k, p ∈ HOLV1 R C ((fun g => DEM2 R C g d)^[k] dem) d) := by
  induction fuel with
  | zero =>
    intro dem acc h
    omega
  | succ fuel ih =>
    intro dem acc h p
    rw [loopRun_succ R C d fuel dem acc]
    cases he : holEmpty R C dem d with
    | true =>
      rw [if_pos rfl]
      show p ∈ acc ↔ _
      constructor
      · exact Or.inl
      · rintro (ha | ⟨k, hk⟩)
        · exact ha
        · rw [HOLV1_nil R C _ d (holEmpty_iterate R C dem d he k)] at hk
          cases hk
    | false =>
      rw [if_neg Bool.false_ne_true]
      show p ∈ (loopRun R C d fuel (DEM2 R C dem d) (acc ++ HOLV1 R C dem d)).polys ↔ _
      have hlt : dataCount R C (DEM2 R C dem d) < fuel := by
        have := dataCount_DEM2_lt R C dem d he
        omega
      rw [ih (DEM2 R C dem d) (acc ++ HOLV1 R C dem d) hlt p, List.mem_append]
      constructor
      · rintro ((ha | h0) | ⟨k, hk⟩)
        · exact Or.inl ha
        · refine Or.inr ⟨0, ?_⟩
          rw [Function.iterate_zero_apply]
          exact h0
        · refine Or.inr ⟨k + 1, ?_⟩
          rw [Function.iterate_succ_apply]
          exact hk
      · rintro (ha | ⟨k, hk⟩)
        · exact Or.inl (Or.inl ha)
        · cases k with
          | zero =>
            rw [Function.iterate_zero_apply] at hk
            exact Or.inl (Or.inr hk)
          | succ k =>
            rw [Function.iterate_succ_apply] at hk
            exact Or.inr ⟨k, hk⟩

/-- C8: threshold monotonicity.  For thresholds `d1 < d2` on the same
input surface, every footprint polygon extracted by the `d2`-run has all
its cells contained in some footprint polygon extracted by the `d1`-run:
the `k`-th deflated surface of the `d2`-run is a value-preserving,
component-closed sub-surface of the `k`-th deflated surface of the
`d1`-run, so its depth regions, zonal maxima and hole cells are a subset
of the `d1`-run's, hole region by hole region. -/
theorem C8_threshold_monotonicity (R C : ℕ) (S : Grid) (d1 d2 : ℤ)
    (hwf : wf R C S) (hd : d1 < d2) :
    ∀ p ∈ (run R C S d2).polys, ∃ q ∈ (run R C S d1).polys,
      ∀ x ∈ p.cells, x ∈ q.cells := by
  intro p hp
  have hfuel : dataCount R C S < dataCount R C S + 1 := by omega
  have hp' : p ∈ (loopRun R C d2 (dataCount R C S + 1) S []).polys := hp
  rw [loopRun_polys_iff R C d2 (dataCount R C S + 1) S [] hfuel p] at hp'
  rcases hp' with h0 | ⟨k, hk⟩
  · cases h0
  · have hI := Inv_iter R C S d1 d2 hwf (le_of_lt hd) k
    obtain ⟨q, hq, hsub⟩ := HOLV1_mono R C _ _ d1 d2 hI (le_of_lt hd) p hk
    refine ⟨q, ?_, hsub⟩
    show q ∈ (loopRun R C d1 (dataCount R C S + 1) S []).polys
    rw [loopRun_polys_iff R C d1 (dataCount R C S + 1) S [] hfuel q]
    exact Or.inr ⟨k, hq⟩

/-- C8 witness: the containment at a concrete input — the 5 × 5 pit demo
with thresholds 0 < 1. -/
theorem C8_threshold_monotonicity_witness :
    wf 5 5 pitDemo5 ∧ (0 : ℤ) < 1 ∧
      ∀ p ∈ (run 5 5 pitDemo5 1).polys, ∃ q ∈ (run 5 5 pitDemo5 0).polys,
        ∀ x ∈ p.cells, x ∈ q.cells :=
  ⟨by decide, by decide,
    C8_threshold_monotonicity 5 5 pitDemo5 0 1 (by decide) (by decide)⟩

end SinkId
